import Mathlib

/-!
A verification development for a small in-memory computation graph.

The graph is a shared-ownership structure of nodes, each holding a pure
transformation, an optional external input vector, a memoized output cache,
and two edge lists: upstream dependencies (field `down`) and downstream
consumers (field `up`).  We embed the graph as an arena (a list of nodes
indexed by natural numbers); the dynamic exclusive-access discipline of the
source (one active mutable access per node, a second concurrent access being
a fatal fault) is embedded by threading the list `active` of currently
mutably-borrowed node ids, and failing with `CErr.borrowErr` whenever a
traversal attempts to re-enter a node in `active`.  Recursion in the source
is unbounded; here it is driven by an explicit `fuel` argument, with
`CErr.fuelErr` marking fuel exhaustion (which never occurs for sufficiently
large fuel whenever the source terminates).
-/

/-- Numeric values carried by the graph (the source uses machine floats;
the claims under study are parametric in the arithmetic, so we carry
integers). -/
abbrev Val := Int

/-- The shared storage of one node: consumers (`up`), dependencies (`down`),
the pure transformation, the memoized cache and the external input. -/
structure NodeInner where
  up : List Nat
  down : List Nat
  func : List Val → List Val
  cache : Option (List Val)
  input : Option (List Val)

/-- A fresh node: no edges, no cache, no input. -/
def NodeInner.new (f : List Val → List Val) : NodeInner :=
  ⟨[], [], f, none, none⟩

instance : Inhabited NodeInner := ⟨NodeInner.new (fun _ => [])⟩

/-- The arena of nodes; a node is identified by its index. -/
structure Graph where
  nodes : List NodeInner

/-- Number of nodes in the arena. -/
def Graph.size (g : Graph) : Nat := g.nodes.length

/-- Read a node (a default empty node beyond the arena; well-formed graphs
never reference such an id). -/
def Graph.get (g : Graph) (id : Nat) : NodeInner := g.nodes.getD id default

/-- Write a node (no-op beyond the arena). -/
def Graph.setNode (g : Graph) (id : Nat) (nd : NodeInner) : Graph :=
  ⟨g.nodes.set id nd⟩

/-- Fatal conditions: a reentrant mutable access (the dynamic borrow fault),
fuel exhaustion (a model artifact standing for nontermination), the
supposedly unreachable read of an empty cache, and an out-of-range
vector-insert index. -/
inductive CErr
  | borrowErr
  | fuelErr
  | unreachableErr
  | indexErr
deriving DecidableEq

/-- Result of the evaluation engine: the updated graph, the ids whose
transform was invoked (in invocation order), and the fatal condition if
one fired. -/
structure CompResult where
  graph : Graph
  trace : List Nat
  err : Option CErr

/-- Result of computing a list of upstream dependencies: updated graph,
transform-invocation trace, concatenated outputs, fatal condition. -/
structure ChildResult where
  graph : Graph
  trace : List Nat
  outs : List Val
  err : Option CErr

/-- Result of the invalidation propagator. -/
structure ClearResult where
  graph : Graph
  err : Option CErr

/-- Process the upstream dependencies of a node in edge order: mutably
borrow each (fault if it is already borrowed), force its computation with
`step`, then read its output (the cache; an empty cache here is the
source's unreachable branch).  Outputs are concatenated in edge order. -/
def runChildren (step : Graph → List Nat → Nat → CompResult) :
    Graph → List Nat → List Nat → ChildResult
  | g, _, [] => ⟨g, [], [], none⟩
  | g, active, c :: rest =>
    if c ∈ active then ⟨g, [], [], some .borrowErr⟩
    else
      let r := step g (c :: active) c
      match r.err with
      | some e => ⟨r.graph, r.trace, [], some e⟩
      | none =>
        match (r.graph.get c).cache with
        | none => ⟨r.graph, r.trace, [], some .unreachableErr⟩
        | some out =>
          let r2 := runChildren step r.graph active rest
          ⟨r2.graph, r.trace ++ r2.trace, out ++ r2.outs, r2.err⟩

/-- The memoized depth-first evaluation engine (`NodeInner::compute`): if
the cache is filled return at once; otherwise force every upstream
dependency in edge order, apply the transform to the concatenation of
their outputs followed by the external input (empty if unset), and store
the result in the cache.  The caller holds the mutable access to `id`
(`id` is in `active`). -/
def computeInner : Nat → Graph → List Nat → Nat → CompResult
  | 0, g, _, _ => ⟨g, [], some .fuelErr⟩
  | fuel + 1, g, active, id =>
    let nd := g.get id
    match nd.cache with
    | some _ => ⟨g, [], none⟩
    | none =>
      let r := runChildren (computeInner fuel) g active nd.down
      match r.err with
      | some e => ⟨r.graph, r.trace, some e⟩
      | none =>
        let result := nd.func (r.outs ++ nd.input.getD [])
        ⟨r.graph.setNode id { nd with cache := some result },
          r.trace ++ [id], none⟩

/-- The public compute operation (`Node::compute`): take the node's mutable
access, run the engine, then read the output through the cache. -/
def computeNode (fuel : Nat) (g : Graph) (id : Nat) :
    CompResult × Option (List Val) :=
  let r := computeInner fuel g [id] id
  match r.err with
  | some _ => (r, none)
  | none =>
    match (r.graph.get id).cache with
    | some out => (r, some out)
    | none => (⟨r.graph, r.trace, some .unreachableErr⟩, none)

/-- Walk a list of downstream consumers, mutably borrowing each (fault on a
node already borrowed) and recursively clearing it with `step`. -/
def clearList (step : Graph → List Nat → Nat → ClearResult) :
    Graph → List Nat → List Nat → ClearResult
  | g, _, [] => ⟨g, none⟩
  | g, active, u :: rest =>
    if u ∈ active then ⟨g, some .borrowErr⟩
    else
      let r := step g (u :: active) u
      match r.err with
      | some e => ⟨r.graph, some e⟩
      | none => clearList step r.graph active rest

/-- The invalidation propagator (`NodeInner::clear_cache`): discard the
node's cache, then recursively clear every downstream consumer in edge
order, holding the mutable access of each node for the duration of its
recursive call.  The caller holds the mutable access to `id`. -/
def clearCacheInner : Nat → Graph → List Nat → Nat → ClearResult
  | 0, g, _, _ => ⟨g, some .fuelErr⟩
  | fuel + 1, g, active, id =>
    let nd := g.get id
    clearList (clearCacheInner fuel) (g.setNode id { nd with cache := none })
      active nd.up

/-- Edge creation (`Node::add_children`): holding the consumer's mutable
access, append the dependency to the consumer's `down` list, then borrow
the dependency (a fault when it is the consumer itself) and append the
consumer to its `up` list, and finally clear the consumer's cache,
propagating invalidation upward. -/
def addChildren (fuel : Nat) (g : Graph) (consumer dep : Nat) : ClearResult :=
  let nd := g.get consumer
  let g1 := g.setNode consumer { nd with down := nd.down ++ [dep] }
  if dep = consumer then ⟨g1, some .borrowErr⟩
  else
    let nd2 := g1.get dep
    let g2 := g1.setNode dep { nd2 with up := nd2.up ++ [consumer] }
    clearCacheInner fuel g2 [consumer] consumer

/-- Input handle read (`Input::get`): the current external input, unset as
`none`; no side effects. -/
def inputGet (g : Graph) (id : Nat) : Option (List Val) :=
  (g.get id).input

/-- Input handle write (`Input::set`): replace the external input wholesale,
then unconditionally clear the node's cache (propagating upward), holding
the node's mutable access throughout. -/
def inputSet (fuel : Nat) (g : Graph) (id : Nat) (vals : List Val) :
    ClearResult :=
  let nd := g.get id
  clearCacheInner fuel (g.setNode id { nd with input := some vals }) [id] id

/-- Input handle partial edit (`Input::insert`): when an input is set,
insert `value` at `index` (an out-of-range index is the vector's fatal
bounds fault) and clear the cache, reporting `some ()`; when unset, do
nothing and report `none`. -/
def inputInsert (fuel : Nat) (g : Graph) (id : Nat) (index : Nat)
    (value : Val) : ClearResult × Option Unit :=
  let nd := g.get id
  match nd.input with
  | none => (⟨g, none⟩, none)
  | some inp =>
    if inp.length < index then (⟨g, some .indexErr⟩, none)
    else
      let g1 := g.setNode id { nd with input := some (inp.insertIdx index value) }
      (clearCacheInner fuel g1 [id] id, some ())

/-- Node construction (`Node::new`): append a fresh node to the arena and
return its id. -/
def newNode (g : Graph) (f : List Val → List Val) : Graph × Nat :=
  (⟨g.nodes ++ [NodeInner.new f]⟩, g.nodes.length)

/-! ## Specification-side definitions -/

/-- The contract of the evaluation engine, following the specification:
the output of a node equals its transform applied to the concatenation of
the outputs of its upstream dependencies, in edge order, followed by its
external input (empty if unset), each dependency's output being obtained
by the same rule recursively.  A derivation is finite, so the relation is
inhabited at a node exactly when the rule unfolds to arbitrary but finite
depth below it. -/
inductive SpecOutput (g : Graph) : Nat → List Val → Prop
  | mk (v : Nat) (outs : List (List Val))
      (hlen : outs.length = (g.get v).down.length)
      (hch : ∀ i, i < outs.length →
        SpecOutput g ((g.get v).down.getD i 0) (outs.getD i []))
      : SpecOutput g v ((g.get v).func (outs.flatten ++ (g.get v).input.getD []))

/-- Every edge of every node stays inside the arena. -/
def Wf (g : Graph) : Prop :=
  ∀ v, v < g.size →
    (∀ c ∈ (g.get v).down, c < g.size) ∧ (∀ u ∈ (g.get v).up, u < g.size)

/-- Edges are recorded symmetrically: `w` is an upstream dependency of `v`
exactly when `v` is a downstream consumer of `w`. -/
def EdgeSym (g : Graph) : Prop :=
  ∀ v, v < g.size → ∀ w, w < g.size →
    (w ∈ (g.get v).down ↔ v ∈ (g.get w).up)

/-- Every filled cache holds the value assigned by the specification's
evaluation rule in the current graph. -/
def CacheOK (g : Graph) : Prop :=
  ∀ v c, (g.get v).cache = some c → SpecOutput g v c

/-- Every cached node has all of its upstream dependencies cached (an
invariant of states produced by the public operations: computation fills
caches bottom-up and invalidation clears them top-down). -/
def CachedClosed (g : Graph) : Prop :=
  ∀ v, v < g.size → ((g.get v).cache).isSome = true →
    ∀ c ∈ (g.get v).down, ((g.get c).cache).isSome = true

/-- A ranking certifying that dependency edges are acyclic. -/
def DownRank (g : Graph) (rank : Nat → Nat) : Prop :=
  ∀ v, v < g.size → ∀ c ∈ (g.get v).down, rank c < rank v

/-- A ranking certifying that consumer edges are acyclic. -/
def UpRank (g : Graph) (rank : Nat → Nat) : Prop :=
  ∀ v, v < g.size → ∀ u ∈ (g.get v).up, rank u < rank v

/-- Reachability along downstream-consumer edges (reflexive-transitive). -/
inductive UpReach (g : Graph) : Nat → Nat → Prop
  | refl (v : Nat) : UpReach g v v
  | step (v u w : Nat) (h : u ∈ (g.get v).up) (h2 : UpReach g u w) :
      UpReach g v w

/-- Reachability along upstream-dependency edges (reflexive-transitive). -/
inductive DownReach (g : Graph) : Nat → Nat → Prop
  | refl (v : Nat) : DownReach g v v
  | step (v c w : Nat) (h : c ∈ (g.get v).down) (h2 : DownReach g c w) :
      DownReach g v w

/-- Reachability along at least one upstream-dependency edge; in
particular `StrictDownReach g v v` says `v` lies on a dependency cycle. -/
def StrictDownReach (g : Graph) (v w : Nat) : Prop :=
  ∃ c ∈ (g.get v).down, DownReach g c w

/-! ## Arena lemmas -/

/-- Two graphs with the same arena extent and the same edges everywhere. -/
def EdgeEq (g g' : Graph) : Prop :=
  g'.size = g.size ∧
  ∀ v, (g'.get v).down = (g.get v).down ∧ (g'.get v).up = (g.get v).up

/-- Two graphs differing at most in their caches. -/
def SkelEq (g g' : Graph) : Prop :=
  g'.size = g.size ∧
  ∀ v, (g'.get v).down = (g.get v).down ∧ (g'.get v).up = (g.get v).up ∧
    (g'.get v).func = (g.get v).func ∧ (g'.get v).input = (g.get v).input

/-- What one engine call on node `id` (whose mutable access the caller
holds: `id ∈ active`) guarantees structurally, whatever the caches hold:
the skeleton is unchanged, caches only grow and keep their values, nodes
under an active borrow other than `id` are untouched, the
transform-invocation trace is duplicate-free and covers exactly nodes that
went from uncached to cached, the unreachable branch never fires, on
success the node ends cached, and downward cache closure is preserved. -/
def InnerS (g : Graph) (active : List Nat) (id : Nat) (r : CompResult) :
    Prop :=
  SkelEq g r.graph ∧
  (∀ w c, (g.get w).cache = some c → (r.graph.get w).cache = some c) ∧
  (∀ a ∈ active, a ≠ id → r.graph.get a = g.get a) ∧
  r.trace.Nodup ∧
  (∀ t ∈ r.trace, t < g.size ∨ t = id) ∧
  (∀ t ∈ r.trace, (g.get t).cache = none ∧
    (t < g.size → ((r.graph.get t).cache).isSome = true)) ∧
  (∀ a ∈ active, a ∈ r.trace → a = id) ∧
  r.err ≠ some CErr.unreachableErr ∧
  r.err ≠ some CErr.indexErr ∧
  (r.err = none → (id < g.size ∨ ((g.get id).cache).isSome = true) →
    ((r.graph.get id).cache).isSome = true) ∧
  (CachedClosed g → CachedClosed r.graph)

/-- The analogous guarantees for processing a list of dependencies. -/
def ChildrenS (g : Graph) (active : List Nat) (cs : List Nat)
    (r : ChildResult) : Prop :=
  SkelEq g r.graph ∧
  (∀ w c, (g.get w).cache = some c → (r.graph.get w).cache = some c) ∧
  (∀ a ∈ active, r.graph.get a = g.get a) ∧
  r.trace.Nodup ∧
  (∀ t ∈ r.trace, t < g.size) ∧
  (∀ t ∈ r.trace, (g.get t).cache = none ∧
    ((r.graph.get t).cache).isSome = true) ∧
  (∀ a ∈ active, a ∉ r.trace) ∧
  r.err ≠ some CErr.unreachableErr ∧
  r.err ≠ some CErr.indexErr ∧
  (r.err = none → ∀ c ∈ cs, c ∉ active ∧
    ((r.graph.get c).cache).isSome = true) ∧
  (CachedClosed g → CachedClosed r.graph)

/-! ## Unfolding lemmas -/

/-- Given valid caches, one engine call keeps caches valid and, on success,
leaves the node cached with precisely the specification's output. -/
def InnerD (g : Graph) (id : Nat) (r : CompResult) : Prop :=
  CacheOK r.graph ∧
  (r.err = none → (id < g.size ∨ ((g.get id).cache).isSome = true) →
    ∃ d, (r.graph.get id).cache = some d ∧ SpecOutput g id d)

/-- Processing a dependency list keeps caches valid and, on success, yields
the concatenation of the specification outputs of the dependencies. -/
def ChildrenD (g : Graph) (cs : List Nat) (r : ChildResult) : Prop :=
  CacheOK r.graph ∧
  (r.err = none → ∃ outsL : List (List Val), outsL.length = cs.length ∧
    (∀ i, i < outsL.length → SpecOutput g (cs.getD i 0) (outsL.getD i [])) ∧
    r.outs = outsL.flatten)

/-- Invalidation never creates or changes a cache entry (it only clears),
never touches the skeleton, and never reaches the unreachable branch. -/
def ClearS (g : Graph) (r : ClearResult) : Prop :=
  SkelEq g r.graph ∧
  (∀ w c, (r.graph.get w).cache = some c → (g.get w).cache = some c) ∧
  r.err ≠ some CErr.unreachableErr ∧ r.err ≠ some CErr.indexErr

/-- The state of the graph after the two symmetric list pushes of
`addChildren`, before invalidation runs. -/
def pushEdge (g : Graph) (consumer dep : Nat) : Graph :=
  let g1 := g.setNode consumer
    { g.get consumer with down := (g.get consumer).down ++ [dep] }
  g1.setNode dep { g1.get dep with up := (g1.get dep).up ++ [consumer] }

/-- The conjunction of the data-model invariants of reachable states. -/
def GraphInv (g : Graph) : Prop := Wf g ∧ EdgeSym g ∧ CacheOK g

/-- A two-node chain: node 0 consumes node 1; both carry external inputs
and no caches. -/
def gChain : Graph :=
  ⟨[{ up := [], down := [1], func := fun l => l, cache := none,
      input := some [1] },
    { up := [0], down := [], func := fun l => l, cache := none,
      input := some [2, 3] }]⟩

/-- A two-node mutual dependency (nodes 0 and 1 consume each other), with
no caches: the lazy cyclic state. -/
def gCyc : Graph :=
  ⟨[{ up := [1], down := [1], func := fun l => l, cache := none,
      input := none },
    { up := [0], down := [0], func := fun l => l, cache := none,
      input := none }]⟩

/-- Node 0 already depends on node 1 (as after one edge creation); adding
the reverse edge completes a cycle. -/
def gPre : Graph :=
  ⟨[{ up := [], down := [1], func := fun l => l, cache := none,
      input := none },
    { up := [0], down := [], func := fun l => l, cache := none,
      input := none }]⟩

/-- A single fresh node. -/
def gOne : Graph := ⟨[NodeInner.new (fun l => l)]⟩

instance (g : Graph) : Decidable (Wf g) := by
  unfold Wf
  infer_instance

instance (g : Graph) : Decidable (EdgeSym g) := by
  unfold EdgeSym
  infer_instance

instance (g : Graph) : Decidable (CachedClosed g) := by
  unfold CachedClosed
  infer_instance

instance (g : Graph) (rank : Nat → Nat) : Decidable (DownRank g rank) := by
  unfold DownRank
  infer_instance

instance (g : Graph) (rank : Nat → Nat) : Decidable (UpRank g rank) := by
  unfold UpRank
  infer_instance

/-! ## Claim theorems -/

/-- A fresh pair of unconnected nodes. -/
def gTwo : Graph := ⟨[NodeInner.new (fun l => l), NodeInner.new (fun l => l)]⟩

theorem Graph.size_setNode (g : Graph) (id : Nat) (nd : NodeInner) :
    (g.setNode id nd).size = g.size := by
  simp [Graph.setNode, Graph.size]

theorem Graph.get_setNode_self (g : Graph) {id : Nat} (nd : NodeInner)
    (h : id < g.size) : (g.setNode id nd).get id = nd := by
  simp [Graph.setNode, Graph.get, List.getD_eq_getElem?_getD,
    List.getElem?_set_self', Graph.size] at *
  simp [List.getElem?_eq_getElem h]

theorem Graph.get_setNode_ne (g : Graph) {id j : Nat} (nd : NodeInner)
    (h : j ≠ id) : (g.setNode id nd).get j = g.get j := by
  simp [Graph.setNode, Graph.get, List.getD_eq_getElem?_getD,
    List.getElem?_set_ne (Ne.symm h)]

theorem Graph.get_of_ge (g : Graph) {id : Nat} (h : g.size ≤ id) :
    g.get id = default := by
  simp [Graph.get, List.getD_eq_getElem?_getD, List.getElem?_eq_none h]

theorem Graph.get_setNode_of_ge (g : Graph) {id : Nat} (nd : NodeInner)
    (h : g.size ≤ id) : g.setNode id nd = g := by
  simp [Graph.setNode, List.set_eq_of_length_le h]

theorem NodeInner.down_default : (default : NodeInner).down = [] := rfl

theorem NodeInner.up_default : (default : NodeInner).up = [] := rfl

theorem NodeInner.cache_default : (default : NodeInner).cache = none := rfl

/-! ## Graph agreement relations -/

theorem SkelEq.edgeEq {g g' : Graph} (h : SkelEq g g') : EdgeEq g g' :=
  ⟨h.1, fun v => ⟨(h.2 v).1, (h.2 v).2.1⟩⟩

theorem SkelEq.refl (g : Graph) : SkelEq g g :=
  ⟨rfl, fun _ => ⟨rfl, rfl, rfl, rfl⟩⟩

theorem SkelEq.symm {g g' : Graph} (h : SkelEq g g') : SkelEq g' g :=
  ⟨h.1.symm, fun v => ⟨(h.2 v).1.symm, (h.2 v).2.1.symm, (h.2 v).2.2.1.symm,
    (h.2 v).2.2.2.symm⟩⟩

theorem SkelEq.trans {g g' g'' : Graph} (h : SkelEq g g') (h2 : SkelEq g' g'') :
    SkelEq g g'' :=
  ⟨h2.1.trans h.1, fun v =>
    ⟨(h2.2 v).1.trans (h.2 v).1, (h2.2 v).2.1.trans (h.2 v).2.1,
     (h2.2 v).2.2.1.trans (h.2 v).2.2.1, (h2.2 v).2.2.2.trans (h.2 v).2.2.2⟩⟩

/-- Overwriting only the cache of one node preserves the skeleton. -/
theorem skelEq_setNode_cache (g : Graph) (id : Nat) (x : Option (List Val)) :
    SkelEq g (g.setNode id { g.get id with cache := x }) := by
  by_cases h : id < g.size
  · refine ⟨Graph.size_setNode g id _, fun v => ?_⟩
    by_cases hv : v = id
    · subst hv
      rw [Graph.get_setNode_self g _ h]
      exact ⟨rfl, rfl, rfl, rfl⟩
    · rw [Graph.get_setNode_ne g _ hv]
      exact ⟨rfl, rfl, rfl, rfl⟩
  · rw [Graph.get_setNode_of_ge g _ (Nat.le_of_not_lt h)]
    exact SkelEq.refl g

/-! ## Well-formedness helpers -/

theorem wf_down {g : Graph} (hwf : Wf g) {v c : Nat}
    (hc : c ∈ (g.get v).down) : c < g.size := by
  by_cases hv : v < g.size
  · exact (hwf v hv).1 c hc
  · rw [Graph.get_of_ge g (Nat.le_of_not_lt hv), NodeInner.down_default] at hc
    cases hc

theorem wf_up {g : Graph} (hwf : Wf g) {v u : Nat}
    (hu : u ∈ (g.get v).up) : u < g.size := by
  by_cases hv : v < g.size
  · exact (hwf v hv).2 u hu
  · rw [Graph.get_of_ge g (Nat.le_of_not_lt hv), NodeInner.up_default] at hu
    cases hu

/-- Under well-formedness, edge symmetry holds as an unconditional
membership equivalence. -/
theorem mem_down_iff_up {g : Graph} (hwf : Wf g) (hsym : EdgeSym g)
    (v w : Nat) : w ∈ (g.get v).down ↔ v ∈ (g.get w).up := by
  constructor
  · intro h
    by_cases hv : v < g.size
    · exact (hsym v hv w (wf_down hwf h)).1 h
    · rw [Graph.get_of_ge g (Nat.le_of_not_lt hv), NodeInner.down_default] at h
      cases h
  · intro h
    by_cases hw : w < g.size
    · exact (hsym v (wf_up hwf h) w hw).2 h
    · rw [Graph.get_of_ge g (Nat.le_of_not_lt hw), NodeInner.up_default] at h
      cases h

/-! ## Transfer lemmas along graph agreement -/

theorem wf_of_edgeEq {g g' : Graph} (h : EdgeEq g g') (hwf : Wf g) : Wf g' := by
  intro v hv
  rw [h.1] at hv
  rw [(h.2 v).1, (h.2 v).2, h.1]
  exact hwf v hv

theorem edgeSym_of_edgeEq {g g' : Graph} (h : EdgeEq g g') (hsym : EdgeSym g) :
    EdgeSym g' := by
  intro v hv w hw
  rw [h.1] at hv hw
  rw [(h.2 v).1, (h.2 w).2]
  exact hsym v hv w hw

theorem downRank_of_edgeEq {g g' : Graph} {rank : Nat → Nat} (h : EdgeEq g g')
    (hr : DownRank g rank) : DownRank g' rank := by
  intro v hv c hc
  rw [h.1] at hv
  rw [(h.2 v).1] at hc
  exact hr v hv c hc

theorem upRank_of_edgeEq {g g' : Graph} {rank : Nat → Nat} (h : EdgeEq g g')
    (hr : UpRank g rank) : UpRank g' rank := by
  intro v hv u hu
  rw [h.1] at hv
  rw [(h.2 v).2] at hu
  exact hr v hv u hu

theorem upReach_of_edgeEq {g g' : Graph} (h : EdgeEq g g') {a b : Nat}
    (hr : UpReach g a b) : UpReach g' a b := by
  induction hr with
  | refl v => exact UpReach.refl v
  | step v u w hm _ ih =>
    exact UpReach.step v u w (by rw [(h.2 v).2]; exact hm) ih

theorem downReach_of_edgeEq {g g' : Graph} (h : EdgeEq g g') {a b : Nat}
    (hr : DownReach g a b) : DownReach g' a b := by
  induction hr with
  | refl v => exact DownReach.refl v
  | step v c w hm _ ih =>
    exact DownReach.step v c w (by rw [(h.2 v).1]; exact hm) ih

/-! ## Reachability helpers -/

theorem downReach_snoc {g : Graph} {a b c : Nat} (h : DownReach g a b)
    (hc : c ∈ (g.get b).down) : DownReach g a c := by
  induction h with
  | refl v => exact DownReach.step v c c hc (DownReach.refl c)
  | step v x w hm _ ih => exact DownReach.step v x c hm (ih hc)

theorem upReach_snoc {g : Graph} {a b c : Nat} (h : UpReach g a b)
    (hc : c ∈ (g.get b).up) : UpReach g a c := by
  induction h with
  | refl v => exact UpReach.step v c c hc (UpReach.refl c)
  | step v x w hm _ ih => exact UpReach.step v x c hm (ih hc)

theorem downReach_of_upReach {g : Graph} (hwf : Wf g) (hsym : EdgeSym g)
    {a b : Nat} (h : UpReach g a b) : DownReach g b a := by
  induction h with
  | refl v => exact DownReach.refl v
  | step v u w hm _ ih =>
    exact downReach_snoc ih ((mem_down_iff_up hwf hsym u v).2 hm)

theorem upReach_of_downReach {g : Graph} (hwf : Wf g) (hsym : EdgeSym g)
    {a b : Nat} (h : DownReach g a b) : UpReach g b a := by
  induction h with
  | refl v => exact UpReach.refl v
  | step v c w hm _ ih =>
    exact upReach_snoc ih ((mem_down_iff_up hwf hsym v c).1 hm)

theorem downReach_lt {g : Graph} (hwf : Wf g) {v x : Nat} (hv : v < g.size)
    (h : DownReach g v x) : x < g.size := by
  induction h with
  | refl _ => exact hv
  | step _ _ _ hm _ ih => exact ih (wf_down hwf hm)

/-- Downstream reachability is monotone in the dependency edges. -/
theorem downReach_mono {g g' : Graph}
    (h : ∀ v, (g.get v).down ⊆ (g'.get v).down) {a b : Nat}
    (hr : DownReach g a b) : DownReach g' a b := by
  induction hr with
  | refl v => exact DownReach.refl v
  | step v c w hm _ ih => exact DownReach.step v c w (h v hm) ih

/-! ## List index helpers -/

theorem mem_of_getD {α : Type} (l : List α) (d : α) {i : Nat}
    (h : i < l.length) : l.getD i d ∈ l := by
  rw [List.getD_eq_getElem l d h]
  exact List.getElem_mem h

theorem getD_of_mem {α : Type} {l : List α} (d : α) {a : α} (h : a ∈ l) :
    ∃ i, i < l.length ∧ l.getD i d = a := by
  obtain ⟨i, hi, hv⟩ := List.mem_iff_getElem.mp h
  exact ⟨i, hi, by rw [List.getD_eq_getElem l d hi]; exact hv⟩

/-! ## Locality of the specification rule -/

/-- The specification's evaluation rule only reads the dependency lists,
transforms and inputs of the nodes downstream-reachable from the node being
evaluated: any graph agreeing there assigns the same output. -/
theorem specOutput_local {g g' : Graph} : ∀ {v : Nat} {d : List Val},
    SpecOutput g v d →
    (∀ x, DownReach g v x →
      (g'.get x).down = (g.get x).down ∧ (g'.get x).func = (g.get x).func ∧
      (g'.get x).input = (g.get x).input) →
    SpecOutput g' v d := by
  intro v d h
  induction h with
  | mk v outs hlen hch ih =>
    intro hagree
    obtain ⟨hdown, hfunc, hinput⟩ := hagree v (DownReach.refl v)
    have hout : SpecOutput g' v
        ((g'.get v).func (outs.flatten ++ (g'.get v).input.getD [])) := by
      refine SpecOutput.mk v outs (by rw [hdown]; exact hlen) ?_
      intro i hi
      rw [hdown]
      refine ih i hi ?_
      intro x hx
      refine hagree x ?_
      exact DownReach.step v ((g.get v).down.getD i 0) x
        (mem_of_getD _ _ (hlen ▸ hi)) hx
    rw [hfunc, hinput] at hout
    exact hout

/-- Graphs equal up to caches assign equal specification outputs. -/
theorem specOutput_of_skelEq {g g' : Graph} (h : SkelEq g g') {v : Nat}
    {d : List Val} (hs : SpecOutput g v d) : SpecOutput g' v d :=
  specOutput_local hs (fun x _ => ⟨(h.2 x).1, (h.2 x).2.2.1, (h.2 x).2.2.2⟩)

/-- Restriction of a specification derivation to a dependency. -/
theorem specOutput_sub {g : Graph} {v : Nat} {d : List Val}
    (h : SpecOutput g v d) {c : Nat} (hc : c ∈ (g.get v).down) :
    ∃ dc, SpecOutput g c dc := by
  cases h with
  | mk v outs hlen hch =>
    obtain ⟨i, hi, hig⟩ := getD_of_mem 0 hc
    refine ⟨outs.getD i [], ?_⟩
    have := hch i (by omega)
    rw [hig] at this
    exact this

/-- Restriction of a specification derivation to any reachable node. -/
theorem specOutput_reach {g : Graph} {v x : Nat}
    (hr : DownReach g v x) : ∀ {d : List Val}, SpecOutput g v d →
    ∃ dx, SpecOutput g x dx := by
  induction hr with
  | refl _ => intro d h; exact ⟨d, h⟩
  | step v c w hm _ ih =>
    intro d h
    obtain ⟨dc, hdc⟩ := specOutput_sub h hm
    exact ih hdc

/-- A node with a specification output does not lie on a dependency cycle:
the rule's finite unfolding excludes returning to the node. -/
theorem specOutput_no_cycle {g : Graph} : ∀ {v : Nat} {d : List Val},
    SpecOutput g v d → ¬ StrictDownReach g v v := by
  intro v d h
  induction h with
  | mk v outs hlen hch ih =>
    rintro ⟨c, hc, hreach⟩
    obtain ⟨i, hi, hig⟩ := getD_of_mem 0 hc
    have ihc := ih i (by omega)
    rw [hig] at ihc
    apply ihc
    cases hreach with
    | refl _ => exact ⟨_, hc, DownReach.refl _⟩
    | step _ c2 _ hm2 h22 => exact ⟨c2, hm2, downReach_snoc h22 hc⟩

/-! ## Option helpers -/

theorem cache_isSome_mono {g g' : Graph}
    (hmono : ∀ w c, (g.get w).cache = some c → (g'.get w).cache = some c)
    {w : Nat} (h : ((g.get w).cache).isSome = true) :
    ((g'.get w).cache).isSome = true := by
  cases hh : (g.get w).cache with
  | none => rw [hh] at h; cases h
  | some c => rw [hmono w c hh]; rfl

theorem cache_none_of_mono {g g' : Graph}
    (hmono : ∀ w c, (g.get w).cache = some c → (g'.get w).cache = some c)
    {w : Nat} (h : (g'.get w).cache = none) : (g.get w).cache = none := by
  cases hh : (g.get w).cache with
  | none => rfl
  | some c => rw [hmono w c hh] at h; cases h

/-! ## The structural invariant pack of the evaluation engine -/

theorem runChildren_nil (step : Graph → List Nat → Nat → CompResult)
    (g : Graph) (active : List Nat) :
    runChildren step g active [] = ⟨g, [], [], none⟩ := rfl

theorem runChildren_cons_mem (step : Graph → List Nat → Nat → CompResult)
    (g : Graph) (active : List Nat) (c : Nat) (rest : List Nat)
    (h : c ∈ active) :
    runChildren step g active (c :: rest) = ⟨g, [], [], some .borrowErr⟩ := by
  simp only [runChildren, if_pos h]

theorem runChildren_cons_err (step : Graph → List Nat → Nat → CompResult)
    (g : Graph) (active : List Nat) (c : Nat) (rest : List Nat)
    (h : c ∉ active) {e : CErr} (he : (step g (c :: active) c).err = some e) :
    runChildren step g active (c :: rest) =
      ⟨(step g (c :: active) c).graph, (step g (c :: active) c).trace, [],
        some e⟩ := by
  simp only [runChildren, if_neg h, he]

theorem runChildren_cons_unreach (step : Graph → List Nat → Nat → CompResult)
    (g : Graph) (active : List Nat) (c : Nat) (rest : List Nat)
    (h : c ∉ active) (he : (step g (c :: active) c).err = none)
    (hc : ((step g (c :: active) c).graph.get c).cache = none) :
    runChildren step g active (c :: rest) =
      ⟨(step g (c :: active) c).graph, (step g (c :: active) c).trace, [],
        some .unreachableErr⟩ := by
  simp only [runChildren, if_neg h, he, hc]

theorem runChildren_cons_ok (step : Graph → List Nat → Nat → CompResult)
    (g : Graph) (active : List Nat) (c : Nat) (rest : List Nat)
    (h : c ∉ active) (he : (step g (c :: active) c).err = none)
    {out : List Val}
    (hc : ((step g (c :: active) c).graph.get c).cache = some out) :
    runChildren step g active (c :: rest) =
      ⟨(runChildren step (step g (c :: active) c).graph active rest).graph,
        (step g (c :: active) c).trace ++
          (runChildren step (step g (c :: active) c).graph active rest).trace,
        out ++ (runChildren step (step g (c :: active) c).graph active rest).outs,
        (runChildren step (step g (c :: active) c).graph active rest).err⟩ := by
  simp only [runChildren, if_neg h, he, hc]

theorem computeInner_zero (g : Graph) (active : List Nat) (id : Nat) :
    computeInner 0 g active id = ⟨g, [], some .fuelErr⟩ := rfl

theorem computeInner_succ_cached (fuel : Nat) (g : Graph) (active : List Nat)
    (id : Nat) {c : List Val} (h : (g.get id).cache = some c) :
    computeInner (fuel + 1) g active id = ⟨g, [], none⟩ := by
  simp only [computeInner, h]

theorem computeInner_succ_err (fuel : Nat) (g : Graph) (active : List Nat)
    (id : Nat) (h : (g.get id).cache = none) {e : CErr}
    (he : (runChildren (computeInner fuel) g active (g.get id).down).err =
      some e) :
    computeInner (fuel + 1) g active id =
      ⟨(runChildren (computeInner fuel) g active (g.get id).down).graph,
        (runChildren (computeInner fuel) g active (g.get id).down).trace,
        some e⟩ := by
  simp only [computeInner, h, he]

theorem computeInner_succ_ok (fuel : Nat) (g : Graph) (active : List Nat)
    (id : Nat) (h : (g.get id).cache = none)
    (he : (runChildren (computeInner fuel) g active (g.get id).down).err =
      none) :
    computeInner (fuel + 1) g active id =
      ⟨(runChildren (computeInner fuel) g active (g.get id).down).graph.setNode
          id { g.get id with cache := some ((g.get id).func
            ((runChildren (computeInner fuel) g active (g.get id).down).outs ++
              (g.get id).input.getD [])) },
        (runChildren (computeInner fuel) g active (g.get id).down).trace ++ [id],
        none⟩ := by
  simp only [computeInner, h, he]

theorem clearList_nil (step : Graph → List Nat → Nat → ClearResult)
    (g : Graph) (active : List Nat) :
    clearList step g active [] = ⟨g, none⟩ := rfl

theorem clearList_cons_mem (step : Graph → List Nat → Nat → ClearResult)
    (g : Graph) (active : List Nat) (u : Nat) (rest : List Nat)
    (h : u ∈ active) :
    clearList step g active (u :: rest) = ⟨g, some .borrowErr⟩ := by
  simp only [clearList, if_pos h]

theorem clearList_cons_err (step : Graph → List Nat → Nat → ClearResult)
    (g : Graph) (active : List Nat) (u : Nat) (rest : List Nat)
    (h : u ∉ active) {e : CErr} (he : (step g (u :: active) u).err = some e) :
    clearList step g active (u :: rest) =
      ⟨(step g (u :: active) u).graph, some e⟩ := by
  simp only [clearList, if_neg h, he]

theorem clearList_cons_ok (step : Graph → List Nat → Nat → ClearResult)
    (g : Graph) (active : List Nat) (u : Nat) (rest : List Nat)
    (h : u ∉ active) (he : (step g (u :: active) u).err = none) :
    clearList step g active (u :: rest) =
      clearList step (step g (u :: active) u).graph active rest := by
  simp only [clearList, if_neg h, he]

theorem clearCacheInner_zero (g : Graph) (active : List Nat) (id : Nat) :
    clearCacheInner 0 g active id = ⟨g, some .fuelErr⟩ := rfl

theorem clearCacheInner_succ (fuel : Nat) (g : Graph) (active : List Nat)
    (id : Nat) :
    clearCacheInner (fuel + 1) g active id =
      clearList (clearCacheInner fuel)
        (g.setNode id { g.get id with cache := none }) active
        (g.get id).up := rfl

/-- Processing a dependency list satisfies the structural pack, given that
the engine step does. -/
theorem runChildren_S (step : Graph → List Nat → Nat → CompResult)
    (hstep : ∀ g active c, Wf g → c ∈ active →
      InnerS g active c (step g active c)) :
    ∀ (cs : List Nat) (g : Graph) (active : List Nat), Wf g →
      (∀ c ∈ cs, c < g.size) →
      ChildrenS g active cs (runChildren step g active cs) := by
  intro cs
  induction cs with
  | nil =>
    intro g active hwf _
    rw [runChildren_nil]
    exact ⟨SkelEq.refl g, fun _ _ h => h, fun _ _ => rfl, List.nodup_nil,
      fun t ht => absurd ht (List.not_mem_nil t),
      fun t ht => absurd ht (List.not_mem_nil t),
      fun a _ => List.not_mem_nil a,
      fun h => Option.noConfusion h, fun h => Option.noConfusion h,
      fun _ x hx => absurd hx (List.not_mem_nil x),
      fun h => h⟩
  | cons c rest ih =>
    intro g active hwf hlt
    have hcsize : c < g.size := hlt c (List.mem_cons_self c rest)
    by_cases hca : c ∈ active
    · rw [runChildren_cons_mem step g active c rest hca]
      exact ⟨SkelEq.refl g, fun _ _ h => h, fun _ _ => rfl, List.nodup_nil,
        fun t ht => absurd ht (List.not_mem_nil t),
        fun t ht => absurd ht (List.not_mem_nil t),
        fun a _ => List.not_mem_nil a,
        fun h => CErr.noConfusion (Option.some.inj h),
        fun h => CErr.noConfusion (Option.some.inj h),
        fun h => Option.noConfusion h,
        fun h => h⟩
    · obtain ⟨s1, s2, s3, s4, s5, s6, s7, s8, s9, s10, s11⟩ :=
        hstep g (c :: active) c hwf (List.mem_cons_self c active)
      have htlt : ∀ t ∈ (step g (c :: active) c).trace, t < g.size := by
        intro t ht
        rcases s5 t ht with h | h
        · exact h
        · exact h ▸ hcsize
      cases he : (step g (c :: active) c).err with
      | some e =>
        rw [runChildren_cons_err step g active c rest hca he]
        rw [he] at s8 s9
        refine ⟨s1, s2, ?_, s4, htlt, ?_, ?_, s8, s9,
          fun h => Option.noConfusion h, s11⟩
        · intro a ha
          exact s3 a (List.mem_cons_of_mem c ha) (fun hac => hca (hac ▸ ha))
        · intro t ht
          exact ⟨(s6 t ht).1, (s6 t ht).2 (htlt t ht)⟩
        · intro a ha hmem
          exact hca ((s7 a (List.mem_cons_of_mem c ha) hmem) ▸ ha)
      | none =>
        cases hcc : ((step g (c :: active) c).graph.get c).cache with
        | none =>
          have hs := s10 he (Or.inl hcsize)
          rw [hcc] at hs
          exact Bool.noConfusion hs
        | some out =>
          rw [runChildren_cons_ok step g active c rest hca he hcc]
          have hwf1 : Wf (step g (c :: active) c).graph :=
            wf_of_edgeEq s1.edgeEq hwf
          have hsz1 : (step g (c :: active) c).graph.size = g.size := s1.1
          have hlt1 : ∀ x ∈ rest, x < (step g (c :: active) c).graph.size :=
            fun x hx => by
              rw [hsz1]; exact hlt x (List.mem_cons_of_mem c hx)
          obtain ⟨t1, t2, t3, t4, t5, t6, t7, t8, t9, t10, t11⟩ :=
            ih (step g (c :: active) c).graph active hwf1 hlt1
          refine ⟨s1.trans t1, ?_, ?_, ?_, ?_, ?_, ?_, t8, t9, ?_,
            fun hcl => t11 (s11 hcl)⟩
          · intro w cc hw
            exact t2 w cc (s2 w cc hw)
          · intro a ha
            rw [t3 a ha]
            exact s3 a (List.mem_cons_of_mem c ha) (fun hac => hca (hac ▸ ha))
          · refine List.Nodup.append s4 t4 ?_
            intro t htr htr2
            have hsome := (s6 t htr).2 (htlt t htr)
            have hnone := (t6 t htr2).1
            rw [hnone] at hsome
            exact Bool.noConfusion hsome
          · intro t ht
            rcases List.mem_append.1 ht with h | h
            · exact htlt t h
            · rw [← hsz1]; exact t5 t h
          · intro t ht
            rcases List.mem_append.1 ht with h | h
            · exact ⟨(s6 t h).1,
                cache_isSome_mono t2 ((s6 t h).2 (htlt t h))⟩
            · exact ⟨cache_none_of_mono s2 (t6 t h).1, (t6 t h).2⟩
          · intro a ha hmem
            rcases List.mem_append.1 hmem with h | h
            · exact hca ((s7 a (List.mem_cons_of_mem c ha) h) ▸ ha)
            · exact t7 a ha h
          · intro hre x hx
            rcases List.mem_cons.1 hx with h | h
            · subst h
              refine ⟨hca, cache_isSome_mono t2 ?_⟩
              rw [hcc]; rfl
            · exact t10 hre x h

/-- The evaluation engine satisfies the structural pack. -/
theorem computeInner_S : ∀ (fuel : Nat) (g : Graph) (active : List Nat)
    (id : Nat), Wf g → id ∈ active →
    InnerS g active id (computeInner fuel g active id) := by
  intro fuel
  induction fuel with
  | zero =>
    intro g active id _ _
    rw [computeInner_zero]
    exact ⟨SkelEq.refl g, fun _ _ h => h, fun _ _ _ => rfl, List.nodup_nil,
      fun t ht => absurd ht (List.not_mem_nil t),
      fun t ht => absurd ht (List.not_mem_nil t),
      fun a _ ht => absurd ht (List.not_mem_nil a),
      fun h => CErr.noConfusion (Option.some.inj h),
      fun h => CErr.noConfusion (Option.some.inj h),
      fun h => Option.noConfusion h,
      fun h => h⟩
  | succ fuel ihf =>
    intro g active id hwf hid
    cases hc : (g.get id).cache with
    | some c0 =>
      rw [computeInner_succ_cached fuel g active id hc]
      refine ⟨SkelEq.refl g, fun _ _ h => h, fun _ _ _ => rfl, List.nodup_nil,
        fun t ht => absurd ht (List.not_mem_nil t),
        fun t ht => absurd ht (List.not_mem_nil t),
        fun a _ ht => absurd ht (List.not_mem_nil a),
        fun h => Option.noConfusion h, fun h => Option.noConfusion h,
        ?_, fun h => h⟩
      intro _ _
      show ((g.get id).cache).isSome = true
      rw [hc]; rfl
    | none =>
      obtain ⟨c1, c2, c3, c4, c5, c6, c7, c8, c9, c10, c11⟩ :=
        runChildren_S (computeInner fuel)
          (fun g' a' c' hw hm => ihf g' a' c' hw hm)
          (g.get id).down g active hwf (fun x hx => wf_down hwf hx)
      cases he :
          (runChildren (computeInner fuel) g active (g.get id).down).err with
      | some e =>
        rw [computeInner_succ_err fuel g active id hc he]
        rw [he] at c8 c9
        exact ⟨c1, c2, fun a ha _ => c3 a ha, c4,
          fun t ht => Or.inl (c5 t ht),
          fun t ht => ⟨(c6 t ht).1, fun _ => (c6 t ht).2⟩,
          fun a ha hmem => absurd hmem (c7 a ha),
          c8, c9, fun h => Option.noConfusion h, c11⟩
      | none =>
        rw [computeInner_succ_ok fuel g active id hc he]
        set rg := (runChildren (computeInner fuel) g active (g.get id).down).graph
          with hrg
        set ctr := (runChildren (computeInner fuel) g active (g.get id).down).trace
          with hctr
        set res := (g.get id).func
          ((runChildren (computeInner fuel) g active (g.get id).down).outs ++
            (g.get id).input.getD []) with hres
        have hgid : rg.get id = g.get id := c3 id hid
        have hsz : rg.size = g.size := c1.1
        -- transfer of cached nodes into the final graph
        have hfinx : ∀ y, ((rg.get y).cache).isSome = true →
            (((rg.setNode id { g.get id with cache := some res }).get y).cache).isSome
              = true := by
          intro y hy
          by_cases hyid : y = id
          · rw [hyid] at hy ⊢
            by_cases hids : id < g.size
            · rw [Graph.get_setNode_self rg _ (by rw [hsz]; exact hids)]
              rfl
            · rw [Graph.get_setNode_of_ge rg _ (by rw [hsz]; omega)]
              exact hy
          · rw [Graph.get_setNode_ne rg _ hyid]
            exact hy
        refine ⟨?_, ?_, ?_, ?_, ?_, ?_, ?_,
          fun h => Option.noConfusion h, fun h => Option.noConfusion h,
          ?_, ?_⟩
        · -- skeleton preserved
          show SkelEq g (rg.setNode id { g.get id with cache := some res })
          refine c1.trans ?_
          rw [← hgid]
          exact skelEq_setNode_cache rg id (some res)
        · -- caches only grow
          intro w cw hw
          show ((rg.setNode id { g.get id with cache := some res }).get w).cache
            = some cw
          by_cases hwid : w = id
          · subst hwid; rw [hc] at hw; exact Option.noConfusion hw
          · rw [Graph.get_setNode_ne rg _ hwid]
            exact c2 w cw hw
        · -- other active nodes untouched
          intro a ha hane
          show (rg.setNode id { g.get id with cache := some res }).get a = g.get a
          rw [Graph.get_setNode_ne rg _ hane]
          exact c3 a ha
        · -- trace has no duplicates
          show (ctr ++ [id]).Nodup
          refine List.Nodup.append c4 (List.nodup_singleton id) ?_
          intro t htr hmem
          rw [List.mem_singleton.1 hmem] at htr
          exact c7 id hid htr
        · -- traced ids lie in the arena or are the root
          intro t ht
          rcases List.mem_append.1 ht with h | h
          · exact Or.inl (c5 t h)
          · exact Or.inr (List.mem_singleton.1 h)
        · -- traced ids went from uncached to cached
          intro t ht
          rcases List.mem_append.1 ht with h | h
          · exact ⟨(c6 t h).1, fun _ => hfinx t (c6 t h).2⟩
          · rw [List.mem_singleton.1 h]
            refine ⟨hc, fun hids => ?_⟩
            show (((rg.setNode id { g.get id with cache := some res }).get id).cache).isSome
              = true
            rw [Graph.get_setNode_self rg _ (by rw [hsz]; exact hids)]
            rfl
        · -- an active id in the trace is the root
          intro a ha hmem
          rcases List.mem_append.1 hmem with h | h
          · exact absurd h (c7 a ha)
          · exact List.mem_singleton.1 h
        · -- on success the root ends cached
          intro _ hor
          rcases hor with hids | hsome
          · show (((rg.setNode id { g.get id with cache := some res }).get id).cache).isSome
              = true
            rw [Graph.get_setNode_self rg _ (by rw [hsz]; exact hids)]
            rfl
          · rw [hc] at hsome; exact Bool.noConfusion hsome
        · -- downward cache closure is preserved
          intro hcl
          have hclr := c11 hcl
          intro v hv hvsome x hx
          have hvsz : v < g.size := by
            rw [← hsz, ← Graph.size_setNode rg id { g.get id with cache := some res }]
            exact hv
          by_cases hids : id < g.size
          · by_cases hvid : v = id
            · subst hvid
              rw [Graph.get_setNode_self rg _ (by rw [hsz]; exact hids)] at hx
              obtain ⟨hxa, hxsome⟩ := c10 he x hx
              exact hfinx x hxsome
            · rw [Graph.get_setNode_ne rg _ hvid] at hvsome hx
              exact hfinx x
                (hclr v (by rw [hsz]; exact hvsz) hvsome x hx)
          · rw [Graph.get_setNode_of_ge rg _ (by rw [hsz]; omega)] at hvsome hx ⊢
            exact hclr v (by rw [hsz]; exact hvsz) hvsome x hx

/-! ## The denotational pack: the engine computes the specification rule -/

theorem runChildren_D (step : Graph → List Nat → Nat → CompResult)
    (hstepS : ∀ g active c, Wf g → c ∈ active →
      InnerS g active c (step g active c))
    (hstepD : ∀ g active c, Wf g → CacheOK g → c ∈ active →
      InnerD g c (step g active c)) :
    ∀ (cs : List Nat) (g : Graph) (active : List Nat), Wf g → CacheOK g →
      (∀ c ∈ cs, c < g.size) →
      ChildrenD g cs (runChildren step g active cs) := by
  intro cs
  induction cs with
  | nil =>
    intro g active _ hok _
    rw [runChildren_nil]
    exact ⟨hok, fun _ => ⟨[], rfl, fun i hi => absurd hi (by simp), rfl⟩⟩
  | cons c rest ih =>
    intro g active hwf hok hlt
    have hcsize := hlt c (List.mem_cons_self c rest)
    by_cases hca : c ∈ active
    · rw [runChildren_cons_mem step g active c rest hca]
      exact ⟨hok, fun h => Option.noConfusion h⟩
    · obtain ⟨s1, s2, s3, s4, s5, s6, s7, s8, s9, s10, s11⟩ :=
        hstepS g (c :: active) c hwf (List.mem_cons_self c active)
      obtain ⟨d1, d2⟩ :=
        hstepD g (c :: active) c hwf hok (List.mem_cons_self c active)
      cases he : (step g (c :: active) c).err with
      | some e =>
        rw [runChildren_cons_err step g active c rest hca he]
        exact ⟨d1, fun h => Option.noConfusion h⟩
      | none =>
        cases hcc : ((step g (c :: active) c).graph.get c).cache with
        | none =>
          have hs := s10 he (Or.inl hcsize)
          rw [hcc] at hs; exact Bool.noConfusion hs
        | some out =>
          rw [runChildren_cons_ok step g active c rest hca he hcc]
          have hwf1 : Wf (step g (c :: active) c).graph :=
            wf_of_edgeEq s1.edgeEq hwf
          have hlt1 : ∀ x ∈ rest, x < (step g (c :: active) c).graph.size :=
            fun x hx => by rw [s1.1]; exact hlt x (List.mem_cons_of_mem c hx)
          obtain ⟨e1, e2⟩ :=
            ih (step g (c :: active) c).graph active hwf1 d1 hlt1
          refine ⟨e1, ?_⟩
          intro hre
          obtain ⟨outsL, hol, hoall, hoflat⟩ := e2 hre
          obtain ⟨dc, hdc, hdspec⟩ := d2 he (Or.inl hcsize)
          rw [hcc] at hdc
          have hodc : out = dc := Option.some.inj hdc
          refine ⟨out :: outsL, by simp [hol], ?_, ?_⟩
          · intro i hi
            cases i with
            | zero =>
              rw [List.getD_cons_zero, List.getD_cons_zero, hodc]
              exact hdspec
            | succ i =>
              rw [List.getD_cons_succ, List.getD_cons_succ]
              exact specOutput_of_skelEq (SkelEq.symm s1)
                (hoall i (by simpa using hi))
          · show out ++ (runChildren step (step g (c :: active) c).graph active
                rest).outs = (out :: outsL).flatten
            rw [hoflat, List.flatten_cons]

/-- The evaluation engine satisfies the denotational pack: caches stay
valid (even across a faulted call) and a successful call leaves the node
cached with the specification's output. -/
theorem computeInner_D : ∀ (fuel : Nat) (g : Graph) (active : List Nat)
    (id : Nat), Wf g → CacheOK g → id ∈ active →
    InnerD g id (computeInner fuel g active id) := by
  intro fuel
  induction fuel with
  | zero =>
    intro g active id _ hok _
    rw [computeInner_zero]
    exact ⟨hok, fun h => Option.noConfusion h⟩
  | succ fuel ihf =>
    intro g active id hwf hok hid
    cases hc : (g.get id).cache with
    | some c0 =>
      rw [computeInner_succ_cached fuel g active id hc]
      exact ⟨hok, fun _ _ => ⟨c0, hc, hok id c0 hc⟩⟩
    | none =>
      obtain ⟨c1, c2, c3, c4, c5, c6, c7, c8, c9, c10, c11⟩ :=
        runChildren_S (computeInner fuel)
          (fun g' a' c' hw hm => computeInner_S fuel g' a' c' hw hm)
          (g.get id).down g active hwf (fun x hx => wf_down hwf hx)
      obtain ⟨e1, e2⟩ :=
        runChildren_D (computeInner fuel)
          (fun g' a' c' hw hm => computeInner_S fuel g' a' c' hw hm)
          (fun g' a' c' hw hko hm => ihf g' a' c' hw hko hm)
          (g.get id).down g active hwf hok (fun x hx => wf_down hwf hx)
      cases he :
          (runChildren (computeInner fuel) g active (g.get id).down).err with
      | some e =>
        rw [computeInner_succ_err fuel g active id hc he]
        exact ⟨e1, fun h => Option.noConfusion h⟩
      | none =>
        rw [computeInner_succ_ok fuel g active id hc he]
        set rg := (runChildren (computeInner fuel) g active (g.get id).down).graph
          with hrg
        set res := (g.get id).func
          ((runChildren (computeInner fuel) g active (g.get id).down).outs ++
            (g.get id).input.getD []) with hres
        have hgid : rg.get id = g.get id := c3 id hid
        have hsz : rg.size = g.size := c1.1
        obtain ⟨outsL, hol, hoall, hoflat⟩ := e2 he
        have hspec : SpecOutput g id res := by
          rw [hres, hoflat]
          exact SpecOutput.mk id outsL hol hoall
        have hskelrf : SkelEq rg
            (rg.setNode id { g.get id with cache := some res }) := by
          rw [← hgid]
          exact skelEq_setNode_cache rg id (some res)
        constructor
        · -- caches remain valid in the final graph
          intro w cw hw
          by_cases hids : id < g.size
          · by_cases hwid : w = id
            · rw [hwid] at hw ⊢
              rw [Graph.get_setNode_self rg _ (by rw [hsz]; exact hids)] at hw
              have hres_cw : res = cw := Option.some.inj hw
              rw [← hres_cw]
              exact specOutput_of_skelEq (c1.trans hskelrf) hspec
            · rw [Graph.get_setNode_ne rg _ hwid] at hw
              exact specOutput_of_skelEq hskelrf (e1 w cw hw)
          · rw [Graph.get_setNode_of_ge rg _ (by rw [hsz]; omega)] at hw ⊢
            exact e1 w cw hw
        · -- on success the node is cached with the specification output
          intro _ hor
          rcases hor with hids | hsome
          · refine ⟨res, ?_, hspec⟩
            show ((rg.setNode id { g.get id with cache := some res }).get
              id).cache = some res
            rw [Graph.get_setNode_self rg _ (by rw [hsz]; exact hids)]
          · rw [hc] at hsome; exact Bool.noConfusion hsome

/-! ## Success of the engine on acyclic dependency graphs -/

theorem runChildren_T (step : Graph → List Nat → Nat → CompResult)
    (rank : Nat → Nat) (bound : Nat)
    (hstepS : ∀ g active c, Wf g → c ∈ active →
      InnerS g active c (step g active c))
    (hstepT : ∀ g active c, Wf g → DownRank g rank →
      (∀ a ∈ active, rank c ≤ rank a) → rank c < bound →
      (step g active c).err = none) :
    ∀ (cs : List Nat) (g : Graph) (active : List Nat), Wf g →
      DownRank g rank → (∀ c ∈ cs, c < g.size) →
      (∀ c ∈ cs, rank c < bound) → (∀ a ∈ active, bound ≤ rank a) →
      (runChildren step g active cs).err = none := by
  intro cs
  induction cs with
  | nil =>
    intro g active _ _ _ _ _
    rw [runChildren_nil]
  | cons c rest ih =>
    intro g active hwf hrank hlt hrb hact
    have hcb := hrb c (List.mem_cons_self c rest)
    have hca : c ∉ active := fun h => absurd (hact c h) (by omega)
    have hsucc : (step g (c :: active) c).err = none := by
      refine hstepT g (c :: active) c hwf hrank ?_ hcb
      intro a ha
      rcases List.mem_cons.1 ha with h | h
      · exact h ▸ Nat.le_refl _
      · exact Nat.le_of_lt (Nat.lt_of_lt_of_le hcb (hact a h))
    obtain ⟨s1, _, _, _, _, _, _, _, _, s10, _⟩ :=
      hstepS g (c :: active) c hwf (List.mem_cons_self c active)
    have hcache := s10 hsucc (Or.inl (hlt c (List.mem_cons_self c rest)))
    cases hcc : ((step g (c :: active) c).graph.get c).cache with
    | none => rw [hcc] at hcache; exact Bool.noConfusion hcache
    | some out =>
      rw [runChildren_cons_ok step g active c rest hca hsucc hcc]
      show (runChildren step (step g (c :: active) c).graph active rest).err
        = none
      refine ih (step g (c :: active) c).graph active
        (wf_of_edgeEq s1.edgeEq hwf) (downRank_of_edgeEq s1.edgeEq hrank)
        ?_ (fun x hx => hrb x (List.mem_cons_of_mem c hx)) hact
      intro x hx
      rw [s1.1]
      exact hlt x (List.mem_cons_of_mem c hx)

/-- With fuel exceeding the rank of the node, the engine succeeds on a
graph whose dependency edges admit a ranking (an acyclic graph), provided
every actively borrowed node ranks at least as high as the node. -/
theorem computeInner_T (rank : Nat → Nat) : ∀ (fuel : Nat) (g : Graph)
    (active : List Nat) (id : Nat), Wf g → DownRank g rank →
    (∀ a ∈ active, rank id ≤ rank a) → rank id < fuel →
    (computeInner fuel g active id).err = none := by
  intro fuel
  induction fuel with
  | zero =>
    intro g active id _ _ _ hfu
    exact absurd hfu (by omega)
  | succ fuel ihf =>
    intro g active id hwf hrank hact hfu
    cases hc : (g.get id).cache with
    | some c0 => rw [computeInner_succ_cached fuel g active id hc]
    | none =>
      have hdr : ∀ c ∈ (g.get id).down, rank c < rank id := by
        by_cases hids : id < g.size
        · exact hrank id hids
        · rw [Graph.get_of_ge g (Nat.le_of_not_lt hids),
            NodeInner.down_default]
          intro c hcm
          cases hcm
      have hce : (runChildren (computeInner fuel) g active
          (g.get id).down).err = none := by
        refine runChildren_T (computeInner fuel) rank (rank id)
          (fun g' a' c' hw hm => computeInner_S fuel g' a' c' hw hm)
          (fun g' a' c' hw hr ha hb => ihf g' a' c' hw hr ha (by omega))
          (g.get id).down g active hwf hrank
          (fun x hx => wf_down hwf hx) hdr hact
      rw [computeInner_succ_ok fuel g active id hc hce]

/-! ## No fuel exhaustion with enough fuel -/

theorem nodup_length_le {l : List Nat} {n : Nat} (hnd : l.Nodup)
    (hlt : ∀ a ∈ l, a < n) : l.length ≤ n := by
  have h1 : l.toFinset.card = l.length := List.toFinset_card_of_nodup hnd
  have h2 : l.toFinset ⊆ Finset.range n := by
    intro x hx
    rw [List.mem_toFinset] at hx
    exact Finset.mem_range.2 (hlt x hx)
  calc l.length = l.toFinset.card := h1.symm
    _ ≤ (Finset.range n).card := Finset.card_le_card h2
    _ = n := Finset.card_range n

theorem runChildren_F (step : Graph → List Nat → Nat → CompResult)
    (bound : Nat)
    (hstepS : ∀ g active c, Wf g → c ∈ active →
      InnerS g active c (step g active c))
    (hstepF : ∀ g active c, Wf g → active.Nodup →
      (∀ a ∈ active, a < g.size) → g.size + 1 ≤ bound + active.length →
      (step g active c).err ≠ some CErr.fuelErr) :
    ∀ (cs : List Nat) (g : Graph) (active : List Nat), Wf g → active.Nodup →
      (∀ a ∈ active, a < g.size) → (∀ c ∈ cs, c < g.size) →
      g.size ≤ bound + active.length →
      (runChildren step g active cs).err ≠ some CErr.fuelErr := by
  intro cs
  induction cs with
  | nil =>
    intro g active _ _ _ _ _
    rw [runChildren_nil]
    exact fun h => Option.noConfusion h
  | cons c rest ih =>
    intro g active hwf hnd hblt hlt hineq
    by_cases hca : c ∈ active
    · rw [runChildren_cons_mem step g active c rest hca]
      exact fun h => CErr.noConfusion (Option.some.inj h)
    · have hstep_ne : (step g (c :: active) c).err ≠ some CErr.fuelErr := by
        refine hstepF g (c :: active) c hwf (List.nodup_cons.2 ⟨hca, hnd⟩)
          ?_ ?_
        · intro a ha
          rcases List.mem_cons.1 ha with h | h
          · exact h ▸ hlt c (List.mem_cons_self c rest)
          · exact hblt a h
        · simp only [List.length_cons]
          omega
      cases he : (step g (c :: active) c).err with
      | some e =>
        rw [runChildren_cons_err step g active c rest hca he]
        intro hcon
        exact hstep_ne (he.trans hcon)
      | none =>
        obtain ⟨s1, _, _, _, _, _, _, _, _, s10, _⟩ :=
          hstepS g (c :: active) c hwf (List.mem_cons_self c active)
        cases hcc : ((step g (c :: active) c).graph.get c).cache with
        | none =>
          rw [runChildren_cons_unreach step g active c rest hca he hcc]
          exact fun h => CErr.noConfusion (Option.some.inj h)
        | some out =>
          rw [runChildren_cons_ok step g active c rest hca he hcc]
          show (runChildren step (step g (c :: active) c).graph active
            rest).err ≠ some CErr.fuelErr
          refine ih (step g (c :: active) c).graph active
            (wf_of_edgeEq s1.edgeEq hwf) hnd ?_ ?_ ?_
          · intro a ha; rw [s1.1]; exact hblt a ha
          · intro x hx; rw [s1.1]
            exact hlt x (List.mem_cons_of_mem c hx)
          · rw [s1.1]; exact hineq

/-- With fuel at least the arena extent (adjusted by the borrow depth), the
engine never exhausts its fuel: any fault is a genuine fault of the source,
not nontermination. -/
theorem computeInner_F : ∀ (fuel : Nat) (g : Graph) (active : List Nat)
    (id : Nat), Wf g → active.Nodup → (∀ a ∈ active, a < g.size) →
    g.size + 1 ≤ fuel + active.length →
    (computeInner fuel g active id).err ≠ some CErr.fuelErr := by
  intro fuel
  induction fuel with
  | zero =>
    intro g active id _ hnd hblt hineq
    have hlen : active.length ≤ g.size := nodup_length_le hnd hblt
    exact absurd hineq (by omega)
  | succ fuel ihf =>
    intro g active id hwf hnd hblt hineq
    cases hc : (g.get id).cache with
    | some c0 =>
      rw [computeInner_succ_cached fuel g active id hc]
      exact fun h => Option.noConfusion h
    | none =>
      have hF : (runChildren (computeInner fuel) g active
          (g.get id).down).err ≠ some CErr.fuelErr := by
        refine runChildren_F (computeInner fuel) fuel
          (fun g' a' c' hw hm => computeInner_S fuel g' a' c' hw hm)
          (fun g' a' c' hw hnd' hb' hin' => ihf g' a' c' hw hnd' hb' hin')
          (g.get id).down g active hwf hnd hblt
          (fun x hx => wf_down hwf hx) (by omega)
      cases he :
          (runChildren (computeInner fuel) g active (g.get id).down).err with
      | some e =>
        rw [computeInner_succ_err fuel g active id hc he]
        intro hcon
        exact hF (he.trans hcon)
      | none =>
        rw [computeInner_succ_ok fuel g active id hc he]
        exact fun h => Option.noConfusion h

/-! ## A stale dependency cycle forces a fault -/

theorem runChildren_R (step : Graph → List Nat → Nat → CompResult)
    (S : Nat → Prop)
    (hstepS : ∀ g active c, Wf g → c ∈ active →
      InnerS g active c (step g active c))
    (hstepR : ∀ g active c, Wf g →
      (∀ s, S s → (g.get s).cache = none) →
      (∀ s, S s → ∃ x ∈ (g.get s).down, S x) →
      (step g active c).err = none →
      ¬ S c ∧ (∀ s, S s → ((step g active c).graph.get s).cache = none)) :
    ∀ (cs : List Nat) (g : Graph) (active : List Nat), Wf g →
      (∀ s, S s → (g.get s).cache = none) →
      (∀ s, S s → ∃ x ∈ (g.get s).down, S x) →
      (runChildren step g active cs).err = none →
      (∀ c ∈ cs, ¬ S c) ∧
      (∀ s, S s → ((runChildren step g active cs).graph.get s).cache = none) := by
  intro cs
  induction cs with
  | nil =>
    intro g active _ hmem _ _
    rw [runChildren_nil]
    exact ⟨fun c hc => absurd hc (List.not_mem_nil c), hmem⟩
  | cons c rest ih =>
    intro g active hwf hmem hclosed hsucc
    by_cases hca : c ∈ active
    · rw [runChildren_cons_mem step g active c rest hca] at hsucc
      exact Option.noConfusion hsucc
    · cases he : (step g (c :: active) c).err with
      | some e =>
        rw [runChildren_cons_err step g active c rest hca he] at hsucc
        exact Option.noConfusion hsucc
      | none =>
        obtain ⟨hnc, hS1⟩ := hstepR g (c :: active) c hwf hmem hclosed he
        obtain ⟨s1, _⟩ :=
          hstepS g (c :: active) c hwf (List.mem_cons_self c active)
        cases hcc : ((step g (c :: active) c).graph.get c).cache with
        | none =>
          rw [runChildren_cons_unreach step g active c rest hca he hcc]
            at hsucc
          exact Option.noConfusion hsucc
        | some out =>
          rw [runChildren_cons_ok step g active c rest hca he hcc] at hsucc ⊢
          have hclosed1 : ∀ s, S s →
              ∃ x ∈ ((step g (c :: active) c).graph.get s).down, S x := by
            intro s hs
            rw [(s1.2 s).1]
            exact hclosed s hs
          obtain ⟨ih1, ih2⟩ := ih (step g (c :: active) c).graph active
            (wf_of_edgeEq s1.edgeEq hwf) hS1 hclosed1 hsucc
          refine ⟨?_, ih2⟩
          intro x hx
          rcases List.mem_cons.1 hx with h | h
          · exact h ▸ hnc
          · exact ih1 x h

/-- If the node lies in a set of stale nodes each depending on another
member of the set (a stale path into a stale dependency cycle), the engine
cannot succeed on it, and the members stay stale. -/
theorem computeInner_R (S : Nat → Prop) : ∀ (fuel : Nat) (g : Graph)
    (active : List Nat) (id : Nat), Wf g →
    (∀ s, S s → (g.get s).cache = none) →
    (∀ s, S s → ∃ x ∈ (g.get s).down, S x) →
    (computeInner fuel g active id).err = none →
    ¬ S id ∧
    (∀ s, S s → ((computeInner fuel g active id).graph.get s).cache = none) := by
  intro fuel
  induction fuel with
  | zero =>
    intro g active id _ _ _ hsucc
    rw [computeInner_zero] at hsucc
    exact Option.noConfusion hsucc
  | succ fuel ihf =>
    intro g active id hwf hmem hclosed hsucc
    cases hc : (g.get id).cache with
    | some c0 =>
      rw [computeInner_succ_cached fuel g active id hc] at hsucc ⊢
      refine ⟨fun hS => ?_, hmem⟩
      rw [hmem id hS] at hc
      exact Option.noConfusion hc
    | none =>
      cases he :
          (runChildren (computeInner fuel) g active (g.get id).down).err with
      | some e =>
        rw [computeInner_succ_err fuel g active id hc he] at hsucc
        exact Option.noConfusion hsucc
      | none =>
        obtain ⟨hcs, hS'⟩ := runChildren_R (computeInner fuel) S
          (fun g' a' c' hw hm => computeInner_S fuel g' a' c' hw hm)
          (fun g' a' c' hw hm' hc' hs' => ihf g' a' c' hw hm' hc' hs')
          (g.get id).down g active hwf hmem hclosed he
        have hnid : ¬ S id := by
          intro hS
          obtain ⟨x, hx, hSx⟩ := hclosed id hS
          exact hcs x hx hSx
        rw [computeInner_succ_ok fuel g active id hc he]
        refine ⟨hnid, ?_⟩
        intro s hs
        show (((runChildren (computeInner fuel) g active
          (g.get id).down).graph.setNode id
            { g.get id with cache := some _ }).get s).cache = none
        have hsne : s ≠ id := fun hsid => hnid (hsid ▸ hs)
        rw [Graph.get_setNode_ne _ _ hsne]
        exact hS' s hs

/-! ## Structural facts about the invalidation propagator -/

theorem clearS_none_preserved {g : Graph} {r : ClearResult} (h : ClearS g r)
    {w : Nat} (hw : (g.get w).cache = none) : (r.graph.get w).cache = none := by
  cases hres : (r.graph.get w).cache with
  | none => rfl
  | some c => rw [h.2.1 w c hres] at hw; exact Option.noConfusion hw

theorem cache_setNode_none (g : Graph) (id : Nat) :
    ∀ w c, ((g.setNode id { g.get id with cache := none }).get w).cache
      = some c → (g.get w).cache = some c := by
  intro w c h
  by_cases hwid : w = id
  · rw [hwid] at h ⊢
    by_cases hids : id < g.size
    · rw [Graph.get_setNode_self g _ hids] at h
      exact Option.noConfusion h
    · rw [Graph.get_setNode_of_ge g _ (Nat.le_of_not_lt hids)] at h
      exact h
  · rw [Graph.get_setNode_ne g _ hwid] at h
    exact h

theorem cache_clear_self (g : Graph) (id : Nat) :
    ((g.setNode id { g.get id with cache := none }).get id).cache = none := by
  by_cases hids : id < g.size
  · rw [Graph.get_setNode_self g _ hids]
  · rw [Graph.get_setNode_of_ge g _ (Nat.le_of_not_lt hids),
      Graph.get_of_ge g (Nat.le_of_not_lt hids)]
    rfl

theorem clearList_S (step : Graph → List Nat → Nat → ClearResult)
    (hstep : ∀ g active u, ClearS g (step g active u)) :
    ∀ (us : List Nat) (g : Graph) (active : List Nat),
      ClearS g (clearList step g active us) := by
  intro us
  induction us with
  | nil =>
    intro g active
    rw [clearList_nil]
    exact ⟨SkelEq.refl g, fun _ _ h => h,
      fun h => Option.noConfusion h, fun h => Option.noConfusion h⟩
  | cons u rest ih =>
    intro g active
    by_cases hua : u ∈ active
    · rw [clearList_cons_mem step g active u rest hua]
      exact ⟨SkelEq.refl g, fun _ _ h => h,
        fun h => CErr.noConfusion (Option.some.inj h),
        fun h => CErr.noConfusion (Option.some.inj h)⟩
    · obtain ⟨s1, s2, s3, s4⟩ := hstep g (u :: active) u
      cases he : (step g (u :: active) u).err with
      | some e =>
        rw [clearList_cons_err step g active u rest hua he]
        rw [he] at s3 s4
        exact ⟨s1, s2, s3, s4⟩
      | none =>
        rw [clearList_cons_ok step g active u rest hua he]
        obtain ⟨t1, t2, t3, t4⟩ := ih (step g (u :: active) u).graph active
        exact ⟨s1.trans t1, fun w c hw => s2 w c (t2 w c hw), t3, t4⟩

theorem clearCacheInner_S : ∀ (fuel : Nat) (g : Graph) (active : List Nat)
    (id : Nat), ClearS g (clearCacheInner fuel g active id) := by
  intro fuel
  induction fuel with
  | zero =>
    intro g active id
    rw [clearCacheInner_zero]
    exact ⟨SkelEq.refl g, fun _ _ h => h,
      fun h => CErr.noConfusion (Option.some.inj h),
      fun h => CErr.noConfusion (Option.some.inj h)⟩
  | succ fuel ihf =>
    intro g active id
    rw [clearCacheInner_succ]
    obtain ⟨t1, t2, t3, t4⟩ := clearList_S (clearCacheInner fuel)
      (fun g' a' u' => ihf g' a' u')
      (g.get id).up (g.setNode id { g.get id with cache := none }) active
    exact ⟨(skelEq_setNode_cache g id none).trans t1,
      fun w c hw => cache_setNode_none g id w c (t2 w c hw), t3, t4⟩

/-! ## A successful invalidation clears every reachable consumer -/

theorem clearList_All (step : Graph → List Nat → Nat → ClearResult)
    (hstepS : ∀ g active u, ClearS g (step g active u))
    (hstepA : ∀ g active u, (step g active u).err = none →
      ∀ w, UpReach g u w → ((step g active u).graph.get w).cache = none) :
    ∀ (us : List Nat) (g : Graph) (active : List Nat),
      (clearList step g active us).err = none →
      (∀ w, (g.get w).cache = none →
        ((clearList step g active us).graph.get w).cache = none) ∧
      (∀ u ∈ us, ∀ w, UpReach g u w →
        ((clearList step g active us).graph.get w).cache = none) := by
  intro us
  induction us with
  | nil =>
    intro g active _
    rw [clearList_nil]
    exact ⟨fun _ hw => hw, fun u hu => absurd hu (List.not_mem_nil u)⟩
  | cons u rest ih =>
    intro g active hsucc
    by_cases hua : u ∈ active
    · rw [clearList_cons_mem step g active u rest hua] at hsucc
      exact Option.noConfusion hsucc
    · cases he : (step g (u :: active) u).err with
      | some e =>
        rw [clearList_cons_err step g active u rest hua he] at hsucc
        exact Option.noConfusion hsucc
      | none =>
        rw [clearList_cons_ok step g active u rest hua he] at hsucc ⊢
        obtain ⟨pres2, all2⟩ := ih (step g (u :: active) u).graph active hsucc
        have hpres1 : ∀ w, (g.get w).cache = none →
            (((step g (u :: active) u).graph).get w).cache = none :=
          fun w hw => clearS_none_preserved (hstepS g (u :: active) u) hw
        refine ⟨fun w hw => pres2 w (hpres1 w hw), ?_⟩
        intro x hx w hw
        rcases List.mem_cons.1 hx with h | h
        · exact pres2 w (hstepA g (u :: active) u he w (h ▸ hw))
        · exact all2 x h w
            (upReach_of_edgeEq (hstepS g (u :: active) u).1.edgeEq hw)

theorem clearCacheInner_All : ∀ (fuel : Nat) (g : Graph) (active : List Nat)
    (id : Nat), (clearCacheInner fuel g active id).err = none →
    ∀ w, UpReach g id w →
      ((clearCacheInner fuel g active id).graph.get w).cache = none := by
  intro fuel
  induction fuel with
  | zero =>
    intro g active id hsucc
    rw [clearCacheInner_zero] at hsucc
    exact Option.noConfusion hsucc
  | succ fuel ihf =>
    intro g active id hsucc w hw
    rw [clearCacheInner_succ] at hsucc ⊢
    obtain ⟨pres, all⟩ := clearList_All (clearCacheInner fuel)
      (fun g' a' u' => clearCacheInner_S fuel g' a' u')
      (fun g' a' u' hs w' hw' => ihf g' a' u' hs w' hw')
      (g.get id).up (g.setNode id { g.get id with cache := none }) active
      hsucc
    cases hw with
    | refl _ => exact pres id (cache_clear_self g id)
    | step _ u _ hm h2 =>
      exact all u hm w
        (upReach_of_edgeEq (skelEq_setNode_cache g id none).edgeEq h2)

/-! ## Termination of invalidation on acyclic consumer graphs -/

theorem clearList_T (step : Graph → List Nat → Nat → ClearResult)
    (rank : Nat → Nat) (bound : Nat)
    (hstepS : ∀ g active u, ClearS g (step g active u))
    (hstepT : ∀ g active u, Wf g → UpRank g rank →
      (∀ a ∈ active, rank u ≤ rank a) → rank u < bound →
      (step g active u).err = none) :
    ∀ (us : List Nat) (g : Graph) (active : List Nat), Wf g →
      UpRank g rank → (∀ u ∈ us, rank u < bound) →
      (∀ a ∈ active, bound ≤ rank a) →
      (clearList step g active us).err = none := by
  intro us
  induction us with
  | nil =>
    intro g active _ _ _ _
    rw [clearList_nil]
  | cons u rest ih =>
    intro g active hwf hrank hrb hact
    have hub := hrb u (List.mem_cons_self u rest)
    have hua : u ∉ active := fun h => absurd (hact u h) (by omega)
    have hsucc : (step g (u :: active) u).err = none := by
      refine hstepT g (u :: active) u hwf hrank ?_ hub
      intro a ha
      rcases List.mem_cons.1 ha with h | h
      · exact h ▸ Nat.le_refl _
      · exact Nat.le_of_lt (Nat.lt_of_lt_of_le hub (hact a h))
    rw [clearList_cons_ok step g active u rest hua hsucc]
    have hskel := (hstepS g (u :: active) u).1
    exact ih (step g (u :: active) u).graph active
      (wf_of_edgeEq hskel.edgeEq hwf) (upRank_of_edgeEq hskel.edgeEq hrank)
      (fun x hx => hrb x (List.mem_cons_of_mem u hx)) hact

/-- With fuel exceeding the node's rank in a consumer-edge ranking (an
acyclic consumer graph), invalidation terminates without fault. -/
theorem clearCacheInner_T (rank : Nat → Nat) : ∀ (fuel : Nat) (g : Graph)
    (active : List Nat) (id : Nat), Wf g → UpRank g rank →
    (∀ a ∈ active, rank id ≤ rank a) → rank id < fuel →
    (clearCacheInner fuel g active id).err = none := by
  intro fuel
  induction fuel with
  | zero =>
    intro g active id _ _ _ hfu
    exact absurd hfu (by omega)
  | succ fuel ihf =>
    intro g active id hwf hrank hact hfu
    rw [clearCacheInner_succ]
    have hur : ∀ u ∈ (g.get id).up, rank u < rank id := by
      by_cases hids : id < g.size
      · exact hrank id hids
      · rw [Graph.get_of_ge g (Nat.le_of_not_lt hids), NodeInner.up_default]
        intro u hu
        cases hu
    have hskel := skelEq_setNode_cache g id (none : Option (List Val))
    exact clearList_T (clearCacheInner fuel) rank (rank id)
      (fun g' a' u' => clearCacheInner_S fuel g' a' u')
      (fun g' a' u' hw hr ha hb => ihf g' a' u' hw hr ha (by omega))
      (g.get id).up (g.setNode id { g.get id with cache := none }) active
      (wf_of_edgeEq hskel.edgeEq hwf) (upRank_of_edgeEq hskel.edgeEq hrank)
      hur hact

/-! ## No fuel exhaustion of invalidation with enough fuel -/

theorem clearList_F (step : Graph → List Nat → Nat → ClearResult)
    (bound : Nat)
    (hstepS : ∀ g active u, ClearS g (step g active u))
    (hstepF : ∀ g active u, Wf g → active.Nodup →
      (∀ a ∈ active, a < g.size) → g.size + 1 ≤ bound + active.length →
      (step g active u).err ≠ some CErr.fuelErr) :
    ∀ (us : List Nat) (g : Graph) (active : List Nat), Wf g → active.Nodup →
      (∀ a ∈ active, a < g.size) → (∀ u ∈ us, u < g.size) →
      g.size ≤ bound + active.length →
      (clearList step g active us).err ≠ some CErr.fuelErr := by
  intro us
  induction us with
  | nil =>
    intro g active _ _ _ _ _
    rw [clearList_nil]
    exact fun h => Option.noConfusion h
  | cons u rest ih =>
    intro g active hwf hnd hblt hlt hineq
    by_cases hua : u ∈ active
    · rw [clearList_cons_mem step g active u rest hua]
      exact fun h => CErr.noConfusion (Option.some.inj h)
    · have hstep_ne : (step g (u :: active) u).err ≠ some CErr.fuelErr := by
        refine hstepF g (u :: active) u hwf (List.nodup_cons.2 ⟨hua, hnd⟩)
          ?_ ?_
        · intro a ha
          rcases List.mem_cons.1 ha with h | h
          · exact h ▸ hlt u (List.mem_cons_self u rest)
          · exact hblt a h
        · simp only [List.length_cons]
          omega
      cases he : (step g (u :: active) u).err with
      | some e =>
        rw [clearList_cons_err step g active u rest hua he]
        intro hcon
        exact hstep_ne (he.trans hcon)
      | none =>
        rw [clearList_cons_ok step g active u rest hua he]
        have hskel := (hstepS g (u :: active) u).1
        refine ih (step g (u :: active) u).graph active
          (wf_of_edgeEq hskel.edgeEq hwf) hnd ?_ ?_ ?_
        · intro a ha; rw [hskel.1]; exact hblt a ha
        · intro x hx; rw [hskel.1]
          exact hlt x (List.mem_cons_of_mem u hx)
        · rw [hskel.1]; exact hineq

/-- With fuel at least the arena extent (adjusted by the borrow depth),
invalidation never exhausts its fuel: its recursion depth is bounded by
the number of nodes, because every step holds one more exclusive access. -/
theorem clearCacheInner_F : ∀ (fuel : Nat) (g : Graph) (active : List Nat)
    (id : Nat), Wf g → active.Nodup → (∀ a ∈ active, a < g.size) →
    g.size + 1 ≤ fuel + active.length →
    (clearCacheInner fuel g active id).err ≠ some CErr.fuelErr := by
  intro fuel
  induction fuel with
  | zero =>
    intro g active id _ hnd hblt hineq
    have hlen : active.length ≤ g.size := nodup_length_le hnd hblt
    exact absurd hineq (by omega)
  | succ fuel ihf =>
    intro g active id hwf hnd hblt hineq
    rw [clearCacheInner_succ]
    have hskel := skelEq_setNode_cache g id (none : Option (List Val))
    have hup : ∀ u ∈ (g.get id).up, u < g.size := fun u hu => wf_up hwf hu
    refine clearList_F (clearCacheInner fuel) fuel
      (fun g' a' u' => clearCacheInner_S fuel g' a' u')
      (fun g' a' u' hw hnd' hb' hin' => ihf g' a' u' hw hnd' hb' hin')
      (g.get id).up (g.setNode id { g.get id with cache := none }) active
      (wf_of_edgeEq hskel.edgeEq hwf) hnd ?_ ?_ ?_
    · intro a ha; rw [hskel.1]; exact hblt a ha
    · intro u hu; rw [hskel.1]; exact hup u hu
    · rw [hskel.1]; omega

/-! ## A consumer cycle forces invalidation to fault -/

theorem clearList_R (step : Graph → List Nat → Nat → ClearResult)
    (S : Nat → Prop)
    (hstepS : ∀ g active u, ClearS g (step g active u))
    (hstepR : ∀ g active u, (∀ s, S s → ∃ x ∈ (g.get s).up, S x) →
      (step g active u).err = none → ¬ S u) :
    ∀ (us : List Nat) (g : Graph) (active : List Nat),
      (∀ s, S s → ∃ x ∈ (g.get s).up, S x) →
      (clearList step g active us).err = none →
      ∀ u ∈ us, ¬ S u := by
  intro us
  induction us with
  | nil =>
    intro g active _ _ u hu
    exact absurd hu (List.not_mem_nil u)
  | cons u rest ih =>
    intro g active hclosed hsucc
    by_cases hua : u ∈ active
    · rw [clearList_cons_mem step g active u rest hua] at hsucc
      exact Option.noConfusion hsucc
    · cases he : (step g (u :: active) u).err with
      | some e =>
        rw [clearList_cons_err step g active u rest hua he] at hsucc
        exact Option.noConfusion hsucc
      | none =>
        rw [clearList_cons_ok step g active u rest hua he] at hsucc
        have hskel := (hstepS g (u :: active) u).1
        have hclosed1 : ∀ s, S s →
            ∃ x ∈ ((step g (u :: active) u).graph.get s).up, S x := by
          intro s hs
          rw [(hskel.2 s).2.1]
          exact hclosed s hs
        intro x hx
        rcases List.mem_cons.1 hx with h | h
        · exact h ▸ hstepR g (u :: active) u hclosed he
        · exact ih (step g (u :: active) u).graph active hclosed1 hsucc x h

/-- If the node lies in a set of nodes each having a consumer in the set
(a path into a consumer cycle), invalidation cannot succeed on it. -/
theorem clearCacheInner_R (S : Nat → Prop) : ∀ (fuel : Nat) (g : Graph)
    (active : List Nat) (id : Nat),
    (∀ s, S s → ∃ x ∈ (g.get s).up, S x) →
    (clearCacheInner fuel g active id).err = none → ¬ S id := by
  intro fuel
  induction fuel with
  | zero =>
    intro g active id _ hsucc
    rw [clearCacheInner_zero] at hsucc
    exact Option.noConfusion hsucc
  | succ fuel ihf =>
    intro g active id hclosed hsucc
    rw [clearCacheInner_succ] at hsucc
    have hskel := skelEq_setNode_cache g id (none : Option (List Val))
    have hclosed1 : ∀ s, S s →
        ∃ x ∈ ((g.setNode id { g.get id with cache := none }).get s).up,
          S x := by
      intro s hs
      rw [(hskel.2 s).2.1]
      exact hclosed s hs
    have hall := clearList_R (clearCacheInner fuel) S
      (fun g' a' u' => clearCacheInner_S fuel g' a' u')
      (fun g' a' u' hc' hs' => ihf g' a' u' hc' hs')
      (g.get id).up (g.setNode id { g.get id with cache := none }) active
      hclosed1 hsucc
    intro hS
    obtain ⟨x, hx, hSx⟩ := hclosed id hS
    exact hall x hx hSx

/-! ## Arena extension (node construction) -/

theorem size_newNode (g : Graph) (f : List Val → List Val) :
    (newNode g f).1.size = g.size + 1 := by
  simp [newNode, Graph.size]

theorem get_newNode_lt (g : Graph) (f : List Val → List Val) {v : Nat}
    (hv : v < g.size) : (newNode g f).1.get v = g.get v :=
  List.getD_append g.nodes [NodeInner.new f] default v hv

theorem get_newNode_self (g : Graph) (f : List Val → List Val) :
    (newNode g f).1.get g.size = NodeInner.new f := by
  show (g.nodes ++ [NodeInner.new f]).getD g.nodes.length default
    = NodeInner.new f
  rw [List.getD_append_right _ _ _ _ (Nat.le_refl _), Nat.sub_self]
  rfl

theorem get_newNode_gt (g : Graph) (f : List Val → List Val) {v : Nat}
    (hv : g.size + 1 ≤ v) : (newNode g f).1.get v = default := by
  refine Graph.get_of_ge _ ?_
  rw [size_newNode]
  exact hv

theorem wf_newNode {g : Graph} (hwf : Wf g) (f : List Val → List Val) :
    Wf (newNode g f).1 := by
  intro v hv
  rw [size_newNode] at hv
  by_cases hvs : v < g.size
  · rw [get_newNode_lt g f hvs, size_newNode]
    exact ⟨fun c hc => Nat.lt_succ_of_lt ((hwf v hvs).1 c hc),
      fun u hu => Nat.lt_succ_of_lt ((hwf v hvs).2 u hu)⟩
  · have hveq : v = g.size := by omega
    rw [hveq, get_newNode_self g f]
    exact ⟨fun c hc => absurd hc (List.not_mem_nil c),
      fun u hu => absurd hu (List.not_mem_nil u)⟩

theorem edgeSym_newNode {g : Graph} (hwf : Wf g) (hsym : EdgeSym g)
    (f : List Val → List Val) : EdgeSym (newNode g f).1 := by
  intro v hv w hw
  rw [size_newNode] at hv hw
  by_cases hvs : v < g.size
  · by_cases hws : w < g.size
    · rw [get_newNode_lt g f hvs, get_newNode_lt g f hws]
      exact hsym v hvs w hws
    · have hweq : w = g.size := by omega
      rw [hweq, get_newNode_lt g f hvs, get_newNode_self g f]
      constructor
      · intro h
        exact absurd ((hwf v hvs).1 _ h) (by omega)
      · intro h
        exact absurd h (List.not_mem_nil v)
  · have hveq : v = g.size := by omega
    rw [hveq, get_newNode_self g f]
    constructor
    · intro h
      exact absurd h (List.not_mem_nil w)
    · intro h
      by_cases hws : w < g.size
      · rw [get_newNode_lt g f hws] at h
        exact absurd ((hwf w hws).2 _ h) (by omega)
      · have hweq : w = g.size := by omega
        rw [hweq, get_newNode_self g f] at h
        exact absurd h (List.not_mem_nil _)

theorem cacheOK_newNode {g : Graph} (hwf : Wf g) (hok : CacheOK g)
    (f : List Val → List Val) : CacheOK (newNode g f).1 := by
  intro v c hv
  by_cases hvs : v < g.size
  · rw [get_newNode_lt g f hvs] at hv
    refine specOutput_local (hok v c hv) ?_
    intro x hx
    have hxs : x < g.size := downReach_lt hwf hvs hx
    rw [get_newNode_lt g f hxs]
    exact ⟨rfl, rfl, rfl⟩
  · by_cases hveq : v = g.size
    · rw [hveq, get_newNode_self g f] at hv
      exact Option.noConfusion hv
    · rw [get_newNode_gt g f (by omega)] at hv
      exact Option.noConfusion hv

/-! ## Rewriting a single node while keeping its edges -/

theorem edgeEq_setNode (g : Graph) (id : Nat) (nd : NodeInner)
    (hd : nd.down = (g.get id).down) (hu : nd.up = (g.get id).up) :
    EdgeEq g (g.setNode id nd) := by
  by_cases hids : id < g.size
  · refine ⟨Graph.size_setNode g id nd, fun v => ?_⟩
    by_cases hv : v = id
    · rw [hv, Graph.get_setNode_self g nd hids]
      exact ⟨hd, hu⟩
    · rw [Graph.get_setNode_ne g nd hv]
      exact ⟨rfl, rfl⟩
  · rw [Graph.get_setNode_of_ge g nd (Nat.le_of_not_lt hids)]
    exact ⟨rfl, fun _ => ⟨rfl, rfl⟩⟩

theorem cache_setNode_keep (g : Graph) (id : Nat) (nd : NodeInner)
    (hc : nd.cache = (g.get id).cache) (w : Nat) :
    ((g.setNode id nd).get w).cache = (g.get w).cache := by
  by_cases hids : id < g.size
  · by_cases hw : w = id
    · rw [hw, Graph.get_setNode_self g nd hids, hc]
    · rw [Graph.get_setNode_ne g nd hw]
  · rw [Graph.get_setNode_of_ge g nd (Nat.le_of_not_lt hids)]

theorem get_setNode_cases (g : Graph) (id : Nat) (nd : NodeInner) (w : Nat) :
    (g.setNode id nd).get w = g.get w ∨
    ((g.setNode id nd).get w = nd ∧ w = id) := by
  by_cases hw : w = id
  · rw [hw]
    by_cases hid : id < g.size
    · exact Or.inr ⟨Graph.get_setNode_self g nd hid, rfl⟩
    · rw [Graph.get_setNode_of_ge g nd (Nat.le_of_not_lt hid)]
      exact Or.inl rfl
  · rw [Graph.get_setNode_ne g nd hw]
    exact Or.inl rfl

/-! ## The edge-pushing prefix of add_children -/

theorem addChildren_eq (fuel : Nat) (g : Graph) {consumer dep : Nat}
    (hne : dep ≠ consumer) :
    addChildren fuel g consumer dep =
      clearCacheInner fuel (pushEdge g consumer dep) [consumer] consumer := by
  simp only [addChildren, pushEdge, if_neg hne]

theorem addChildren_self (fuel : Nat) (g : Graph) (v : Nat) :
    addChildren fuel g v v =
      ⟨g.setNode v { g.get v with down := (g.get v).down ++ [v] },
        some .borrowErr⟩ := by
  unfold addChildren
  rw [if_pos rfl]

theorem size_pushEdge (g : Graph) (consumer dep : Nat) :
    (pushEdge g consumer dep).size = g.size := by
  simp [pushEdge, Graph.size_setNode]

theorem get_pushEdge_consumer (g : Graph) {consumer dep : Nat}
    (hc : consumer < g.size) (hne : dep ≠ consumer) :
    (pushEdge g consumer dep).get consumer =
      { g.get consumer with down := (g.get consumer).down ++ [dep] } := by
  show ((g.setNode consumer _).setNode dep _).get consumer = _
  rw [Graph.get_setNode_ne _ _ (fun h => hne h.symm)]
  exact Graph.get_setNode_self g _ hc

theorem get_pushEdge_dep (g : Graph) {consumer dep : Nat}
    (hd : dep < g.size) (hne : dep ≠ consumer) :
    (pushEdge g consumer dep).get dep =
      { g.get dep with up := (g.get dep).up ++ [consumer] } := by
  show ((g.setNode consumer _).setNode dep _).get dep = _
  rw [Graph.get_setNode_self _ _ (by rw [Graph.size_setNode]; exact hd),
    Graph.get_setNode_ne g _ hne]

theorem get_pushEdge_other (g : Graph) {consumer dep x : Nat}
    (hxc : x ≠ consumer) (hxd : x ≠ dep) :
    (pushEdge g consumer dep).get x = g.get x := by
  show ((g.setNode consumer _).setNode dep _).get x = _
  rw [Graph.get_setNode_ne _ _ hxd, Graph.get_setNode_ne g _ hxc]

theorem cache_pushEdge (g : Graph) (consumer dep : Nat) (w : Nat) :
    ((pushEdge g consumer dep).get w).cache = (g.get w).cache := by
  unfold pushEdge
  rcases get_setNode_cases (g.setNode consumer
      { g.get consumer with down := (g.get consumer).down ++ [dep] }) dep
      { (g.setNode consumer { g.get consumer with
          down := (g.get consumer).down ++ [dep] }).get dep with
        up := ((g.setNode consumer { g.get consumer with
          down := (g.get consumer).down ++ [dep] }).get dep).up ++
            [consumer] } w with h | ⟨h, hwd⟩
  · rw [h]
    rcases get_setNode_cases g consumer
        { g.get consumer with down := (g.get consumer).down ++ [dep] } w
      with h2 | ⟨h2, hwc⟩
    · rw [h2]
    · rw [h2]
      show (g.get consumer).cache = (g.get w).cache
      rw [hwc]
  · rw [h]
    show ((g.setNode consumer { g.get consumer with
      down := (g.get consumer).down ++ [dep] }).get dep).cache
        = (g.get w).cache
    rcases get_setNode_cases g consumer
        { g.get consumer with down := (g.get consumer).down ++ [dep] } dep
      with h2 | ⟨h2, hdc⟩
    · rw [h2, hwd]
    · rw [h2]
      show (g.get consumer).cache = (g.get w).cache
      rw [hwd, hdc]

theorem down_pushEdge_subset (g : Graph) (consumer dep : Nat) (v : Nat) :
    (g.get v).down ⊆ ((pushEdge g consumer dep).get v).down := by
  intro x hx
  unfold pushEdge
  rcases get_setNode_cases (g.setNode consumer
      { g.get consumer with down := (g.get consumer).down ++ [dep] }) dep
      { (g.setNode consumer { g.get consumer with
          down := (g.get consumer).down ++ [dep] }).get dep with
        up := ((g.setNode consumer { g.get consumer with
          down := (g.get consumer).down ++ [dep] }).get dep).up ++
            [consumer] } v with h | ⟨h, hvd⟩
  · rw [h]
    rcases get_setNode_cases g consumer
        { g.get consumer with down := (g.get consumer).down ++ [dep] } v
      with h2 | ⟨h2, hvc⟩
    · rw [h2]; exact hx
    · rw [h2]
      show x ∈ (g.get consumer).down ++ [dep]
      exact List.mem_append_left _ (hvc ▸ hx)
  · rw [h]
    show x ∈ ((g.setNode consumer { g.get consumer with
      down := (g.get consumer).down ++ [dep] }).get dep).down
    rcases get_setNode_cases g consumer
        { g.get consumer with down := (g.get consumer).down ++ [dep] } dep
      with h2 | ⟨h2, hdc⟩
    · rw [h2]
      rw [hvd] at hx
      exact hx
    · rw [h2]
      show x ∈ (g.get consumer).down ++ [dep]
      refine List.mem_append_left _ ?_
      rw [hvd, hdc] at hx
      exact hx

theorem down_pushEdge (g : Graph) {consumer dep : Nat} (hc : consumer < g.size)
    (hd : dep < g.size) (hne : dep ≠ consumer) (v : Nat) :
    ((pushEdge g consumer dep).get v).down =
      if v = consumer then (g.get consumer).down ++ [dep]
      else (g.get v).down := by
  by_cases hvc : v = consumer
  · rw [if_pos hvc, hvc, get_pushEdge_consumer g hc hne]
  · rw [if_neg hvc]
    by_cases hvd : v = dep
    · rw [hvd, get_pushEdge_dep g hd hne]
    · rw [get_pushEdge_other g hvc hvd]

theorem up_pushEdge (g : Graph) {consumer dep : Nat} (hc : consumer < g.size)
    (hd : dep < g.size) (hne : dep ≠ consumer) (w : Nat) :
    ((pushEdge g consumer dep).get w).up =
      if w = dep then (g.get dep).up ++ [consumer] else (g.get w).up := by
  by_cases hwd : w = dep
  · rw [if_pos hwd, hwd, get_pushEdge_dep g hd hne]
  · rw [if_neg hwd]
    by_cases hwc : w = consumer
    · rw [hwc, get_pushEdge_consumer g hc hne]
    · rw [get_pushEdge_other g hwc hwd]

theorem wf_pushEdge {g : Graph} {consumer dep : Nat} (hwf : Wf g)
    (hc : consumer < g.size) (hd : dep < g.size) (hne : dep ≠ consumer) :
    Wf (pushEdge g consumer dep) := by
  intro v hv
  rw [size_pushEdge] at hv
  rw [down_pushEdge g hc hd hne v, up_pushEdge g hc hd hne v, size_pushEdge]
  constructor
  · intro c hcm
    by_cases hvc : v = consumer
    · rw [if_pos hvc] at hcm
      rcases List.mem_append.1 hcm with h | h
      · exact (hwf consumer hc).1 c h
      · rw [List.mem_singleton.1 h]; exact hd
    · rw [if_neg hvc] at hcm
      exact (hwf v hv).1 c hcm
  · intro u hu
    by_cases hvd : v = dep
    · rw [if_pos hvd] at hu
      rcases List.mem_append.1 hu with h | h
      · exact (hwf dep hd).2 u h
      · rw [List.mem_singleton.1 h]; exact hc
    · rw [if_neg hvd] at hu
      exact (hwf v hv).2 u hu

theorem edgeSym_pushEdge {g : Graph} {consumer dep : Nat}
    (hsym : EdgeSym g) (hc : consumer < g.size) (hd : dep < g.size)
    (hne : dep ≠ consumer) : EdgeSym (pushEdge g consumer dep) := by
  intro v hv w hw
  rw [size_pushEdge] at hv hw
  rw [down_pushEdge g hc hd hne v, up_pushEdge g hc hd hne w]
  by_cases hvc : v = consumer
  · by_cases hwd : w = dep
    · rw [if_pos hvc, if_pos hwd]
      constructor
      · intro _
        refine List.mem_append_right _ ?_
        rw [hvc]
        exact List.mem_singleton_self _
      · intro _
        refine List.mem_append_right _ ?_
        rw [hwd]
        exact List.mem_singleton_self _
    · rw [if_pos hvc, if_neg hwd, List.mem_append, List.mem_singleton]
      constructor
      · rintro (h | h)
        · rw [hvc]
          exact (hsym consumer hc w hw).1 h
        · exact absurd h hwd
      · intro h
        left
        refine (hsym consumer hc w hw).2 ?_
        rw [← hvc]
        exact h
  · by_cases hwd : w = dep
    · rw [if_neg hvc, if_pos hwd, List.mem_append, List.mem_singleton]
      constructor
      · intro h
        left
        refine (hsym v hv dep hd).1 ?_
        rw [← hwd]
        exact h
      · rintro (h | h)
        · rw [hwd]
          exact (hsym v hv dep hd).2 h
        · exact absurd h hvc
    · rw [if_neg hvc, if_neg hwd]
      exact hsym v hv w hw

/-! ## Invariant preservation by the mutating operations -/

theorem clearCacheInner_clears_self (fuel : Nat) (g : Graph)
    (active : List Nat) (id : Nat) (h : 1 ≤ fuel) :
    ((clearCacheInner fuel g active id).graph.get id).cache = none := by
  cases fuel with
  | zero => omega
  | succ fuel =>
    rw [clearCacheInner_succ]
    exact clearS_none_preserved
      (clearList_S (clearCacheInner fuel)
        (fun g' a' u' => clearCacheInner_S fuel g' a' u') (g.get id).up
        (g.setNode id { g.get id with cache := none }) active)
      (cache_clear_self g id)

/-- Writing a node's external input and then clearing from it preserves
well-formedness and edge symmetry, and — when the invalidation walk
completes — cache validity. -/
theorem inv_inputMod (g : Graph) (id : Nat) (newinp : Option (List Val))
    (fuel : Nat) (active : List Nat)
    (hwf : Wf g) (hsym : EdgeSym g) (hok : CacheOK g) :
    Wf (clearCacheInner fuel
      (g.setNode id { g.get id with input := newinp }) active id).graph ∧
    EdgeSym (clearCacheInner fuel
      (g.setNode id { g.get id with input := newinp }) active id).graph ∧
    ((clearCacheInner fuel
        (g.setNode id { g.get id with input := newinp }) active id).err = none →
      CacheOK (clearCacheInner fuel
        (g.setNode id { g.get id with input := newinp }) active id).graph) := by
  have hedge1 : EdgeEq g (g.setNode id { g.get id with input := newinp }) :=
    edgeEq_setNode g id _ rfl rfl
  have hclearS := clearCacheInner_S fuel
    (g.setNode id { g.get id with input := newinp }) active id
  refine ⟨wf_of_edgeEq hclearS.1.edgeEq (wf_of_edgeEq hedge1 hwf),
    edgeSym_of_edgeEq hclearS.1.edgeEq (edgeSym_of_edgeEq hedge1 hsym), ?_⟩
  intro hsucc w c hw
  have hw1 := hclearS.2.1 w c hw
  have hw2 : (g.get w).cache = some c := by
    rw [← cache_setNode_keep g id { g.get id with input := newinp } rfl w]
    exact hw1
  have hspec := hok w c hw2
  have hnreach : ¬ UpReach g id w := by
    intro hr
    have hclr := clearCacheInner_All fuel
      (g.setNode id { g.get id with input := newinp }) active id hsucc w
      (upReach_of_edgeEq hedge1 hr)
    rw [hw] at hclr
    exact Option.noConfusion hclr
  have hndown : ¬ DownReach g w id :=
    fun hr => hnreach (upReach_of_downReach hwf hsym hr)
  refine specOutput_of_skelEq hclearS.1 (specOutput_local hspec ?_)
  intro x hx
  by_cases hxid : x = id
  · exact absurd (hxid ▸ hx) hndown
  · rw [Graph.get_setNode_ne g _ hxid]
    exact ⟨rfl, rfl, rfl⟩

/-- Creating an edge (the successful case) preserves well-formedness, edge
symmetry and cache validity. -/
theorem inv_addChildren (g : Graph) (consumer dep : Nat) (fuel : Nat)
    (hwf : Wf g) (hsym : EdgeSym g) (hok : CacheOK g)
    (hc : consumer < g.size) (hd : dep < g.size) (hne : dep ≠ consumer) :
    Wf (addChildren fuel g consumer dep).graph ∧
    EdgeSym (addChildren fuel g consumer dep).graph ∧
    ((addChildren fuel g consumer dep).err = none →
      CacheOK (addChildren fuel g consumer dep).graph) := by
  rw [addChildren_eq fuel g hne]
  have hwf2 : Wf (pushEdge g consumer dep) := wf_pushEdge hwf hc hd hne
  have hsym2 : EdgeSym (pushEdge g consumer dep) :=
    edgeSym_pushEdge hsym hc hd hne
  have hclearS := clearCacheInner_S fuel (pushEdge g consumer dep)
    [consumer] consumer
  refine ⟨wf_of_edgeEq hclearS.1.edgeEq hwf2,
    edgeSym_of_edgeEq hclearS.1.edgeEq hsym2, ?_⟩
  intro hsucc w c hw
  have hw1 := hclearS.2.1 w c hw
  have hw2 : (g.get w).cache = some c := by
    rw [← cache_pushEdge g consumer dep w]
    exact hw1
  have hspec := hok w c hw2
  have hnreach : ¬ UpReach (pushEdge g consumer dep) consumer w := by
    intro hr
    have hclr := clearCacheInner_All fuel (pushEdge g consumer dep)
      [consumer] consumer hsucc w hr
    rw [hw] at hclr
    exact Option.noConfusion hclr
  have hndown : ¬ DownReach (pushEdge g consumer dep) w consumer :=
    fun hr => hnreach (upReach_of_downReach hwf2 hsym2 hr)
  have hncons : ¬ DownReach g w consumer :=
    fun hr => hndown (downReach_mono (down_pushEdge_subset g consumer dep) hr)
  refine specOutput_of_skelEq hclearS.1 (specOutput_local hspec ?_)
  intro x hx
  by_cases hxc : x = consumer
  · exact absurd (hxc ▸ hx) hncons
  · by_cases hxd : x = dep
    · rw [hxd, get_pushEdge_dep g hd hne]
      exact ⟨rfl, rfl, rfl⟩
    · rw [get_pushEdge_other g hxc hxd]
      exact ⟨rfl, rfl, rfl⟩

/-! ## Error classification and wrapper unfolding -/

theorem computeInner_err_cases (fuel : Nat) (g : Graph) (active : List Nat)
    (id : Nat) (hwf : Wf g) (hid : id ∈ active) (hnd : active.Nodup)
    (hblt : ∀ a ∈ active, a < g.size)
    (hineq : g.size + 1 ≤ fuel + active.length) :
    (computeInner fuel g active id).err = none ∨
    (computeInner fuel g active id).err = some CErr.borrowErr := by
  obtain ⟨_, _, _, _, _, _, _, s8, s9, _, _⟩ :=
    computeInner_S fuel g active id hwf hid
  have hF := computeInner_F fuel g active id hwf hnd hblt hineq
  cases he : (computeInner fuel g active id).err with
  | none => exact Or.inl rfl
  | some e =>
    cases e with
    | borrowErr => exact Or.inr rfl
    | fuelErr => exact absurd he hF
    | unreachableErr => exact absurd he s8
    | indexErr => exact absurd he s9

theorem clearCacheInner_err_cases (fuel : Nat) (g : Graph)
    (active : List Nat) (id : Nat) (hwf : Wf g) (hnd : active.Nodup)
    (hblt : ∀ a ∈ active, a < g.size)
    (hineq : g.size + 1 ≤ fuel + active.length) :
    (clearCacheInner fuel g active id).err = none ∨
    (clearCacheInner fuel g active id).err = some CErr.borrowErr := by
  obtain ⟨_, _, s3, s4⟩ := clearCacheInner_S fuel g active id
  have hF := clearCacheInner_F fuel g active id hwf hnd hblt hineq
  cases he : (clearCacheInner fuel g active id).err with
  | none => exact Or.inl rfl
  | some e =>
    cases e with
    | borrowErr => exact Or.inr rfl
    | fuelErr => exact absurd he hF
    | unreachableErr => exact absurd he s3
    | indexErr => exact absurd he s4

theorem computeNode_eq_ok {fuel : Nat} {g : Graph} {id : Nat} {d : List Val}
    (hsucc : (computeInner fuel g [id] id).err = none)
    (hd : ((computeInner fuel g [id] id).graph.get id).cache = some d) :
    computeNode fuel g id = (computeInner fuel g [id] id, some d) := by
  simp only [computeNode, hsucc, hd]

theorem computeNode_eq_err {fuel : Nat} {g : Graph} {id : Nat} {e : CErr}
    (he : (computeInner fuel g [id] id).err = some e) :
    computeNode fuel g id = (computeInner fuel g [id] id, none) := by
  simp only [computeNode, he]

/-! ## Helpers for concrete instances -/

theorem cacheOK_of_none {g : Graph}
    (h : ∀ v, v < g.size → (g.get v).cache = none) : CacheOK g := by
  intro v c hv
  by_cases hvs : v < g.size
  · rw [h v hvs] at hv
    exact Option.noConfusion hv
  · rw [Graph.get_of_ge g (Nat.le_of_not_lt hvs)] at hv
    exact Option.noConfusion hv

/-- In a downward-closed cache state, everything reachable below a cached
node is cached. -/
theorem cached_downReach {g : Graph} (hwf : Wf g) (hcc : CachedClosed g) :
    ∀ {v w : Nat}, DownReach g v w → v < g.size →
      ((g.get v).cache).isSome = true → ((g.get w).cache).isSome = true := by
  intro v w hr
  induction hr with
  | refl _ => exact fun _ h => h
  | step a c b hm _ ih =>
    intro ha hsome
    exact ih (wf_down hwf hm) (hcc a ha hsome c hm)

/-! ## Concrete instances -/

/-- Claim C1: in an acyclic graph (witnessed by a dependency ranking), in a
state whose caches are valid, `compute` succeeds and returns precisely the
specification's contract value: the node's transform applied to the
concatenation of each upstream dependency's output in edge order followed
by the node's own external input (empty if unset), the dependencies'
outputs being given by the same rule recursively (`SpecOutput`). -/
theorem compute_meets_spec_contract (g : Graph) (rank : Nat → Nat)
    (id fuel : Nat) (hwf : Wf g) (hrank : DownRank g rank) (hok : CacheOK g)
    (hid : id < g.size) (hfuel : rank id < fuel) :
    (computeNode fuel g id).1.err = none ∧
    ∃ d, (computeNode fuel g id).2 = some d ∧ SpecOutput g id d := by
  have hact : ∀ a ∈ ([id] : List Nat), rank id ≤ rank a := by
    intro a ha
    rw [List.mem_singleton.1 ha]
  have hsucc : (computeInner fuel g [id] id).err = none :=
    computeInner_T rank fuel g [id] id hwf hrank hact hfuel
  obtain ⟨_, hD⟩ := computeInner_D fuel g [id] id hwf hok
    (List.mem_singleton_self id)
  obtain ⟨d, hd, hdspec⟩ := hD hsucc (Or.inl hid)
  rw [computeNode_eq_ok hsucc hd]
  exact ⟨hsucc, d, rfl, hdspec⟩

/-- Witness for C1 on the two-node chain. -/
theorem compute_meets_spec_contract_witness :
    Wf gChain ∧ DownRank gChain (fun v => 1 - v) ∧ CacheOK gChain ∧
    0 < gChain.size ∧ (fun v => 1 - v) 0 < 5 ∧
    ((computeNode 5 gChain 0).1.err = none ∧
      ∃ d, (computeNode 5 gChain 0).2 = some d ∧ SpecOutput gChain 0 d) :=
  ⟨by decide, by decide, cacheOK_of_none (by decide), by decide, by decide,
    compute_meets_spec_contract gChain (fun v => 1 - v) 0 5 (by decide)
      (by decide) (cacheOK_of_none (by decide)) (by decide) (by decide)⟩

/-- Claim C3: a filled cache short-circuits `compute` — the call returns
the cached vector at once, with the graph unchanged and no transform
invocation or dependency visit (empty invocation trace); consequently, on
an acyclic graph, computing the same root twice with no intervening
mutation invokes each node's transform at most once in total (the first
call's trace is duplicate-free and the second call's trace is empty) and
both calls return the same output. -/
theorem cached_compute_short_circuits :
    (∀ (fuel : Nat) (g : Graph) (active : List Nat) (id : Nat) (c : List Val),
      1 ≤ fuel → (g.get id).cache = some c →
      computeInner fuel g active id = ⟨g, [], none⟩ ∧
      (computeNode fuel g id).2 = some c) ∧
    (∀ (g : Graph) (rank : Nat → Nat) (id fuel : Nat), Wf g →
      DownRank g rank → id < g.size → rank id < fuel →
      (computeNode fuel g id).1.err = none ∧
      (computeNode fuel g id).1.trace.Nodup ∧
      ∃ d, (computeNode fuel g id).2 = some d ∧
        computeNode fuel (computeNode fuel g id).1.graph id =
          (⟨(computeNode fuel g id).1.graph, [], none⟩, some d)) := by
  have hpart1 : ∀ (fuel : Nat) (g : Graph) (active : List Nat) (id : Nat)
      (c : List Val), 1 ≤ fuel → (g.get id).cache = some c →
      computeInner fuel g active id = ⟨g, [], none⟩ ∧
      (computeNode fuel g id).2 = some c := by
    intro fuel g active id c hfuel hc
    cases fuel with
    | zero => omega
    | succ fuel =>
      refine ⟨computeInner_succ_cached fuel g active id hc, ?_⟩
      have h1 := computeInner_succ_cached fuel g [id] id hc
      simp only [computeNode, h1, hc]
  refine ⟨hpart1, ?_⟩
  intro g rank id fuel hwf hrank hid hfuel
  have hact : ∀ a ∈ ([id] : List Nat), rank id ≤ rank a := by
    intro a ha
    rw [List.mem_singleton.1 ha]
  have hsucc : (computeInner fuel g [id] id).err = none :=
    computeInner_T rank fuel g [id] id hwf hrank hact hfuel
  obtain ⟨_, _, _, s4, _, _, _, _, _, s10, _⟩ :=
    computeInner_S fuel g [id] id hwf (List.mem_singleton_self id)
  obtain ⟨d, hd⟩ := Option.isSome_iff_exists.1 (s10 hsucc (Or.inl hid))
  have hr1 := computeNode_eq_ok hsucc hd
  rw [hr1]
  have hfuel1 : 1 ≤ fuel := by omega
  obtain ⟨h2a, h2b⟩ := hpart1 fuel
    (computeInner fuel g [id] id).graph [id] id d hfuel1 hd
  refine ⟨hsucc, s4, d, rfl, ?_⟩
  cases fuel with
  | zero => omega
  | succ fuel =>
    have h1 := computeInner_succ_cached fuel
      (computeInner (fuel + 1) g [id] id).graph [id] id hd
    simp only [computeNode, h1, hd]

/-- Witness for C3 on the two-node chain. -/
theorem cached_compute_short_circuits_witness :
    Wf gChain ∧ DownRank gChain (fun v => 1 - v) ∧ 0 < gChain.size ∧
    (fun v => 1 - v) 0 < 5 ∧
    ((computeNode 5 gChain 0).1.err = none ∧
      (computeNode 5 gChain 0).1.trace.Nodup ∧
      ∃ d, (computeNode 5 gChain 0).2 = some d ∧
        computeNode 5 (computeNode 5 gChain 0).1.graph 0 =
          (⟨(computeNode 5 gChain 0).1.graph, [], none⟩, some d)) :=
  ⟨by decide, by decide, by decide, by decide,
    cached_compute_short_circuits.2 gChain (fun v => 1 - v) 0 5 (by decide)
      (by decide) (by decide) (by decide)⟩

/-- Claim C2: the data-model invariant — a cache is `Some v` only when `v`
is the node's transform applied to the current external input and the
current recursively valid outputs of its dependencies (`CacheOK`, stated
together with arena well-formedness and edge symmetry as `GraphInv`) — is
preserved by every public operation: node construction, edge creation,
`set`, `insert`, and `compute` (the last unconditionally, the mutating
walks when they complete; a faulted walk is fatal and unrecoverable by
design).  `get` reads the input without touching the graph. -/
theorem public_ops_preserve_invariant (g : Graph) (hinv : GraphInv g) :
    (∀ f : List Val → List Val, GraphInv (newNode g f).1) ∧
    (∀ fuel consumer dep, consumer < g.size → dep < g.size →
      dep ≠ consumer → (addChildren fuel g consumer dep).err = none →
      GraphInv (addChildren fuel g consumer dep).graph) ∧
    (∀ fuel id vals, (inputSet fuel g id vals).err = none →
      GraphInv (inputSet fuel g id vals).graph) ∧
    (∀ fuel id idx v, ((inputInsert fuel g id idx v).1).err = none →
      GraphInv ((inputInsert fuel g id idx v).1).graph) ∧
    (∀ fuel active id, id ∈ active →
      GraphInv (computeInner fuel g active id).graph) ∧
    (∀ id, inputGet g id = (g.get id).input) := by
  obtain ⟨hwf, hsym, hok⟩ := hinv
  refine ⟨?_, ?_, ?_, ?_, ?_, fun _ => rfl⟩
  · intro f
    exact ⟨wf_newNode hwf f, edgeSym_newNode hwf hsym f,
      cacheOK_newNode hwf hok f⟩
  · intro fuel consumer dep hc hd hne hsucc
    obtain ⟨h1, h2, h3⟩ := inv_addChildren g consumer dep fuel hwf hsym hok
      hc hd hne
    exact ⟨h1, h2, h3 hsucc⟩
  · intro fuel id vals hsucc
    have := inv_inputMod g id (some vals) fuel [id] hwf hsym hok
    exact ⟨this.1, this.2.1, this.2.2 hsucc⟩
  · intro fuel id idx v hsucc
    cases hinp : (g.get id).input with
    | none =>
      simp only [inputInsert, hinp]
      exact ⟨hwf, hsym, hok⟩
    | some inp =>
      by_cases hlen : inp.length < idx
      · simp only [inputInsert, hinp, if_pos hlen] at hsucc
        exact Option.noConfusion hsucc
      · simp only [inputInsert, hinp, if_neg hlen] at hsucc ⊢
        have := inv_inputMod g id (some (inp.insertIdx idx v)) fuel [id]
          hwf hsym hok
        exact ⟨this.1, this.2.1, this.2.2 hsucc⟩
  · intro fuel active id hid
    obtain ⟨s1, _⟩ := computeInner_S fuel g active id hwf hid
    obtain ⟨d1, _⟩ := computeInner_D fuel g active id hwf hok hid
    exact ⟨wf_of_edgeEq s1.edgeEq hwf, edgeSym_of_edgeEq s1.edgeEq hsym, d1⟩

/-- Witness for C2 on the two-node chain (applying the preservation theorem
and exercising its `set` clause at a concrete input). -/
theorem public_ops_preserve_invariant_witness :
    GraphInv gChain ∧
    ((inputSet 5 gChain 1 [7]).err = none →
      GraphInv (inputSet 5 gChain 1 [7]).graph) :=
  ⟨⟨by decide, by decide, cacheOK_of_none (by decide)⟩,
    (public_ops_preserve_invariant gChain
      ⟨by decide, by decide, cacheOK_of_none (by decide)⟩).2.2.1 5 1 [7]⟩

/-- Claim C4: on an acyclic graph (consumer-edge ranking), `set` replaces
the node's external input wholesale with the given values — for every
value list, identical to the previous input or not, with no equality
short-circuit — and unconditionally runs the invalidation walk, which
completes and leaves the cache of the node and of every node transitively
reachable along downstream-consumer edges empty; cache validity is
preserved, so no stale cached value can be observed by a subsequent
compute. -/
theorem set_replaces_input_and_invalidates (g : Graph) (rank : Nat → Nat)
    (id fuel : Nat) (vals : List Val) (hwf : Wf g) (hrank : UpRank g rank)
    (hid : id < g.size) (hfuel : rank id < fuel) :
    (inputSet fuel g id vals).err = none ∧
    ((inputSet fuel g id vals).graph.get id).input = some vals ∧
    (∀ w, UpReach g id w →
      ((inputSet fuel g id vals).graph.get w).cache = none) ∧
    (EdgeSym g → CacheOK g → CacheOK (inputSet fuel g id vals).graph) := by
  have hedge1 : EdgeEq g (g.setNode id { g.get id with input := some vals }) :=
    edgeEq_setNode g id _ rfl rfl
  have hwf1 : Wf (g.setNode id { g.get id with input := some vals }) :=
    wf_of_edgeEq hedge1 hwf
  have hrank1 : UpRank (g.setNode id { g.get id with input := some vals })
      rank := upRank_of_edgeEq hedge1 hrank
  have hact : ∀ a ∈ ([id] : List Nat), rank id ≤ rank a := by
    intro a ha
    rw [List.mem_singleton.1 ha]
  have hsucc : (inputSet fuel g id vals).err = none :=
    clearCacheInner_T rank fuel _ [id] id hwf1 hrank1 hact hfuel
  have hclearS := clearCacheInner_S fuel
    (g.setNode id { g.get id with input := some vals }) [id] id
  refine ⟨hsucc, ?_, ?_, ?_⟩
  · show ((clearCacheInner fuel
      (g.setNode id { g.get id with input := some vals }) [id]
        id).graph.get id).input = some vals
    rw [(hclearS.1.2 id).2.2.2, Graph.get_setNode_self g _ hid]
  · intro w hr
    exact clearCacheInner_All fuel
      (g.setNode id { g.get id with input := some vals }) [id] id hsucc w
      (upReach_of_edgeEq hedge1 hr)
  · intro hsym hok
    exact (inv_inputMod g id (some vals) fuel [id] hwf hsym hok).2.2
      hsucc

/-- Witness for C4 on the two-node chain, writing node 1's input (equal in
shape to a fresh value). -/
theorem set_replaces_input_and_invalidates_witness :
    Wf gChain ∧ UpRank gChain (fun v => v) ∧ 1 < gChain.size ∧
    (fun v : Nat => v) 1 < 5 ∧
    ((inputSet 5 gChain 1 [7]).err = none ∧
      ((inputSet 5 gChain 1 [7]).graph.get 1).input = some [7] ∧
      (∀ w, UpReach gChain 1 w →
        ((inputSet 5 gChain 1 [7]).graph.get w).cache = none) ∧
      (EdgeSym gChain → CacheOK gChain →
        CacheOK (inputSet 5 gChain 1 [7]).graph)) :=
  ⟨by decide, by decide, by decide, by decide,
    set_replaces_input_and_invalidates gChain (fun v => v) 1 5 [7]
      (by decide) (by decide) (by decide) (by decide)⟩

/-- Claim C5: invoking `compute` on a node of a valid-cache state from
which a dependency cycle is reachable causes the fatal reentrant-access
fault: with fuel at least the arena extent it is precisely the borrow
fault (not fuel exhaustion, i.e. not a hang, and not a wrong answer), and
the caches already filled along the successful portion of the traversal
are left in place, never rolled back. -/
theorem cyclic_compute_faults (g : Graph) (id fuel : Nat)
    (hwf : Wf g) (hok : CacheOK g)
    (hcyc : ∃ c0, DownReach g id c0 ∧ StrictDownReach g c0 c0)
    (hfuel : g.size ≤ fuel) :
    (computeNode fuel g id).1.err = some CErr.borrowErr ∧
    (∀ w c, (g.get w).cache = some c →
      ((computeNode fuel g id).1.graph.get w).cache = some c) := by
  obtain ⟨c0, hpath, hcycle⟩ := hcyc
  have hSid : DownReach g id id ∧ DownReach g id c0 :=
    ⟨DownReach.refl id, hpath⟩
  have hclosed : ∀ s, (DownReach g id s ∧ DownReach g s c0) →
      ∃ x ∈ (g.get s).down, DownReach g id x ∧ DownReach g x c0 := by
    intro s hs
    obtain ⟨h1, h2⟩ := hs
    cases h2 with
    | refl _ =>
      obtain ⟨c1, hc1m, hc1r⟩ := hcycle
      exact ⟨c1, hc1m, downReach_snoc h1 hc1m, hc1r⟩
    | step _ x _ hm h2x =>
      exact ⟨x, hm, downReach_snoc h1 hm, h2x⟩
  have hmem : ∀ s, (DownReach g id s ∧ DownReach g s c0) →
      (g.get s).cache = none := by
    intro s hs
    cases hcache : (g.get s).cache with
    | none => rfl
    | some c =>
      obtain ⟨d0, hd0⟩ := specOutput_reach hs.2 (hok s c hcache)
      exact absurd hcycle (specOutput_no_cycle hd0)
  have hid : id < g.size := by
    by_contra h
    obtain ⟨x, hx, _⟩ := hclosed id hSid
    rw [Graph.get_of_ge g (Nat.le_of_not_lt h), NodeInner.down_default]
      at hx
    cases hx
  have hnsucc : (computeInner fuel g [id] id).err ≠ none := by
    intro hsucc
    obtain ⟨hnid, _⟩ := computeInner_R
      (fun w => DownReach g id w ∧ DownReach g w c0) fuel g [id] id hwf
      hmem hclosed hsucc
    exact hnid hSid
  have hcases := computeInner_err_cases fuel g [id] id hwf
    (List.mem_singleton_self id) (List.nodup_singleton id)
    (fun a ha => by rw [List.mem_singleton.1 ha]; exact hid)
    (by simp only [List.length_singleton]; omega)
  have hberr : (computeInner fuel g [id] id).err = some CErr.borrowErr := by
    rcases hcases with h | h
    · exact absurd h hnsucc
    · exact h
  obtain ⟨_, s2, _⟩ := computeInner_S fuel g [id] id hwf
    (List.mem_singleton_self id)
  rw [computeNode_eq_err hberr]
  exact ⟨hberr, s2⟩

/-- Witness for C5 on the lazy two-node mutual dependency. -/
theorem cyclic_compute_faults_witness :
    Wf gCyc ∧ CacheOK gCyc ∧
    (∃ c0, DownReach gCyc 0 c0 ∧ StrictDownReach gCyc c0 c0) ∧
    gCyc.size ≤ 10 ∧
    ((computeNode 10 gCyc 0).1.err = some CErr.borrowErr ∧
      (∀ w c, (gCyc.get w).cache = some c →
        ((computeNode 10 gCyc 0).1.graph.get w).cache = some c)) :=
  ⟨by decide, cacheOK_of_none (by decide),
    ⟨0, DownReach.refl 0,
      ⟨1, by decide, DownReach.step 1 0 0 (by decide) (DownReach.refl 0)⟩⟩,
    by decide,
    cyclic_compute_faults gCyc 0 10 (by decide) (cacheOK_of_none (by decide))
      ⟨0, DownReach.refl 0,
        ⟨1, by decide, DownReach.step 1 0 0 (by decide) (DownReach.refl 0)⟩⟩
      (by decide)⟩

/-- Counterexample to claim C6 as stated: edge creation does have failure
modes.  Adding the edge that completes a two-node cycle aborts with the
reentrant-access fault inside the invalidation walk (the state `gPre` is
exactly the one the repository's own cyclic test builds), and adding a
self-loop aborts when the operation tries to take the dependency's mutable
access while holding the consumer's. -/
theorem add_dependency_no_failure_cx :
    (addChildren 10 gPre 1 0).err = some CErr.borrowErr ∧
    (addChildren 10 gOne 0 0).err = some CErr.borrowErr :=
  ⟨rfl, rfl⟩

/-- Claim C6 (amended): edge creation enforces no precondition on the edge
itself — for distinct in-arena nodes it always appends the dependency to
the consumer's dependency list and the consumer to the dependency's
consumer list, duplicates included — but it is not failure-free: when
consumer and dependency are the same node it aborts with the
reentrant-access fault, and otherwise it succeeds whenever the
invalidation walk from the consumer meets no cycle (witnessed by a
consumer-edge ranking placing the consumer below the dependency). -/
theorem add_dependency_amended :
    (∀ (fuel : Nat) (g : Graph) (v : Nat),
      (addChildren fuel g v v).err = some CErr.borrowErr) ∧
    (∀ (fuel : Nat) (g : Graph) (consumer dep : Nat), dep ≠ consumer →
      consumer < g.size → dep < g.size →
      ((addChildren fuel g consumer dep).graph.get consumer).down =
        (g.get consumer).down ++ [dep] ∧
      ((addChildren fuel g consumer dep).graph.get dep).up =
        (g.get dep).up ++ [consumer]) ∧
    (∀ (fuel : Nat) (g : Graph) (consumer dep : Nat) (rank : Nat → Nat),
      dep ≠ consumer → consumer < g.size → dep < g.size → Wf g →
      UpRank g rank → rank consumer < rank dep → rank consumer < fuel →
      (addChildren fuel g consumer dep).err = none) := by
  refine ⟨?_, ?_, ?_⟩
  · intro fuel g v
    rw [addChildren_self fuel g v]
  · intro fuel g consumer dep hne hc hd
    rw [addChildren_eq fuel g hne]
    have hclearS := clearCacheInner_S fuel (pushEdge g consumer dep)
      [consumer] consumer
    constructor
    · rw [(hclearS.1.2 consumer).1, get_pushEdge_consumer g hc hne]
    · rw [(hclearS.1.2 dep).2.1, get_pushEdge_dep g hd hne]
  · intro fuel g consumer dep rank hne hc hd hwf hrank hlt hfuel
    rw [addChildren_eq fuel g hne]
    have hrank2 : UpRank (pushEdge g consumer dep) rank := by
      intro v hv u hu
      rw [size_pushEdge] at hv
      rw [up_pushEdge g hc hd hne v] at hu
      by_cases hvd : v = dep
      · rw [if_pos hvd] at hu
        rcases List.mem_append.1 hu with h | h
        · rw [hvd]
          exact hrank dep hd u h
        · rw [List.mem_singleton.1 h, hvd]
          exact hlt
      · rw [if_neg hvd] at hu
        exact hrank v hv u hu
    refine clearCacheInner_T rank fuel (pushEdge g consumer dep)
      [consumer] consumer (wf_pushEdge hwf hc hd hne) hrank2 ?_ hfuel
    intro a ha
    rw [List.mem_singleton.1 ha]

/-- Witness for the amended C6 on a fresh pair of nodes. -/
theorem add_dependency_amended_witness :
    (addChildren 5 gTwo 0 0).err = some CErr.borrowErr ∧
    ((1 : Nat) ≠ 0 ∧ 0 < gTwo.size ∧ 1 < gTwo.size ∧
      ((addChildren 5 gTwo 0 1).graph.get 0).down =
        (gTwo.get 0).down ++ [1] ∧
      ((addChildren 5 gTwo 0 1).graph.get 1).up = (gTwo.get 1).up ++ [0]) ∧
    (Wf gTwo ∧ UpRank gTwo (fun v => v) ∧ (0 : Nat) < 1 ∧ (0 : Nat) < 5 ∧
      (addChildren 5 gTwo 0 1).err = none) :=
  ⟨add_dependency_amended.1 5 gTwo 0,
    ⟨by decide, by decide, by decide,
      add_dependency_amended.2.1 5 gTwo 0 1 (by decide) (by decide)
        (by decide)⟩,
    ⟨by decide, by decide, by decide, by decide,
      add_dependency_amended.2.2 5 gTwo 0 1 (fun v => v) (by decide)
        (by decide) (by decide) (by decide) (by decide) (by decide)
        (by decide)⟩⟩

/-- Counterexample to claim C7 as stated: on the two-node consumer cycle,
invalidation does not recurse unboundedly — with ample fuel it terminates
with the reentrant-access fault, because the walk does hold each node's
exclusive access for the duration of its recursive call. -/
theorem clear_cache_cycle_cx :
    (clearCacheInner 10 gCyc [0] 0).err = some CErr.borrowErr := rfl

/-- Claim C7 (amended): invalidation always terminates for acyclic
consumer graphs (a consumer-edge ranking); for a graph with a cycle among
downstream-consumer edges reachable from the cleared node, it aborts with
the reentrant-access fault when the walk re-enters a node it is already
clearing — invalidation does hold an exclusive-access guard, so the
failure is the same fatal borrow fault as in compute, not unbounded
recursion. -/
theorem clear_cache_amended :
    (∀ (g : Graph) (rank : Nat → Nat) (id fuel : Nat), Wf g →
      UpRank g rank → rank id < fuel →
      (clearCacheInner fuel g [id] id).err = none) ∧
    (∀ (g : Graph) (S : Nat → Prop) (id fuel : Nat), Wf g →
      (∀ s, S s → ∃ x ∈ (g.get s).up, S x) → S id → g.size ≤ fuel →
      (clearCacheInner fuel g [id] id).err = some CErr.borrowErr) := by
  constructor
  · intro g rank id fuel hwf hrank hfuel
    refine clearCacheInner_T rank fuel g [id] id hwf hrank ?_ hfuel
    intro a ha
    rw [List.mem_singleton.1 ha]
  · intro g S id fuel hwf hclosed hS hfuel
    have hid : id < g.size := by
      by_contra h
      obtain ⟨x, hx, _⟩ := hclosed id hS
      rw [Graph.get_of_ge g (Nat.le_of_not_lt h), NodeInner.up_default]
        at hx
      cases hx
    have hnsucc : (clearCacheInner fuel g [id] id).err ≠ none := by
      intro hsucc
      exact clearCacheInner_R S fuel g [id] id hclosed hsucc hS
    rcases clearCacheInner_err_cases fuel g [id] id hwf
      (List.nodup_singleton id)
      (fun a ha => by rw [List.mem_singleton.1 ha]; exact hid)
      (by simp only [List.length_singleton]; omega) with h | h
    · exact absurd h hnsucc
    · exact h

/-- Witness for the amended C7: termination on the chain, borrow fault on
the consumer cycle. -/
theorem clear_cache_amended_witness :
    (Wf gChain ∧ UpRank gChain (fun v => v) ∧ (1 : Nat) < 5 ∧
      (clearCacheInner 5 gChain [1] 1).err = none) ∧
    (Wf gCyc ∧ (fun v => v = 0 ∨ v = 1) 0 ∧ gCyc.size ≤ 10 ∧
      (clearCacheInner 10 gCyc [0] 0).err = some CErr.borrowErr) :=
  ⟨⟨by decide, by decide, by decide,
    clear_cache_amended.1 gChain (fun v => v) 1 5 (by decide) (by decide)
      (by decide)⟩,
   ⟨by decide, Or.inl rfl, by decide,
    clear_cache_amended.2 gCyc (fun v => v = 0 ∨ v = 1) 0 10 (by decide)
      (fun s hs => by
        rcases hs with h | h
        · exact ⟨1, by rw [h]; decide, Or.inr rfl⟩
        · exact ⟨0, by rw [h]; decide, Or.inl rfl⟩)
      (Or.inl rfl) (by decide)⟩⟩

/-- Claim C8: `insert` on a node whose input is set splices the value in
at the index (growing the sequence by one) and triggers invalidation,
reporting success as `some ()`; on a node whose input is unset it reports
the distinguishable `none` and returns the entire graph state, cache
included, completely unchanged. -/
theorem insert_requires_existing_input (g : Graph) (rank : Nat → Nat)
    (id fuel idx : Nat) (v : Val) (hwf : Wf g) (hrank : UpRank g rank)
    (hid : id < g.size) (hfuel : rank id < fuel) :
    ((g.get id).input = none →
      inputInsert fuel g id idx v = (⟨g, none⟩, none)) ∧
    (∀ old, (g.get id).input = some old → idx ≤ old.length →
      (inputInsert fuel g id idx v).2 = some () ∧
      ((inputInsert fuel g id idx v).1).err = none ∧
      (((inputInsert fuel g id idx v).1).graph.get id).input =
        some (old.insertIdx idx v) ∧
      (old.insertIdx idx v).length = old.length + 1 ∧
      (((inputInsert fuel g id idx v).1).graph.get id).cache = none) := by
  constructor
  · intro hnone
    simp only [inputInsert, hnone]
  · intro old hsome hlen
    have hnotlt : ¬ old.length < idx := Nat.not_lt.2 hlen
    simp only [inputInsert, hsome, if_neg hnotlt]
    have hedge1 : EdgeEq g
        (g.setNode id { g.get id with input := some (old.insertIdx idx v) }) :=
      edgeEq_setNode g id _ rfl rfl
    have hsucc : (clearCacheInner fuel
        (g.setNode id { g.get id with input := some (old.insertIdx idx v) })
        [id] id).err = none := by
      refine clearCacheInner_T rank fuel _ [id] id
        (wf_of_edgeEq hedge1 hwf) (upRank_of_edgeEq hedge1 hrank) ?_ hfuel
      intro a ha
      rw [List.mem_singleton.1 ha]
    have hclearS := clearCacheInner_S fuel
      (g.setNode id { g.get id with input := some (old.insertIdx idx v) })
      [id] id
    refine ⟨by trivial, hsucc, ?_, List.length_insertIdx idx old hlen, ?_⟩
    · rw [(hclearS.1.2 id).2.2.2, Graph.get_setNode_self g _ hid]
    · exact clearCacheInner_clears_self fuel _ [id] id (by omega)

/-- Witness for C8 on the two-node chain: inserting into node 1's set
input; the unset clause is vacuous there. -/
theorem insert_requires_existing_input_witness :
    Wf gChain ∧ UpRank gChain (fun w => w) ∧ 1 < gChain.size ∧
    (fun w : Nat => w) 1 < 5 ∧
    (((gChain.get 1).input = none →
        inputInsert 5 gChain 1 0 (9 : Val) = (⟨gChain, none⟩, none)) ∧
      (∀ old, (gChain.get 1).input = some old → 0 ≤ old.length →
        (inputInsert 5 gChain 1 0 (9 : Val)).2 = some () ∧
        ((inputInsert 5 gChain 1 0 (9 : Val)).1).err = none ∧
        (((inputInsert 5 gChain 1 0 (9 : Val)).1).graph.get 1).input =
          some (old.insertIdx 0 (9 : Val)) ∧
        (old.insertIdx 0 (9 : Val)).length = old.length + 1 ∧
        (((inputInsert 5 gChain 1 0 (9 : Val)).1).graph.get 1).cache =
          none)) :=
  ⟨by decide, by decide, by decide, by decide,
    insert_requires_existing_input gChain (fun w => w) 1 5 0 9 (by decide)
      (by decide) (by decide) (by decide)⟩

/-- Claim C9: for distinct in-arena nodes, edge creation updates both
endpoints in one operation — the dependency is appended to the consumer's
dependency list and the consumer to the dependency's consumer list — and
it clears the consumer's cache and, when the walk completes, propagates
invalidation to every node upward-reachable from the consumer. -/
theorem add_dependency_updates_both_endpoints (g : Graph)
    (fuel consumer dep : Nat) (hne : dep ≠ consumer)
    (hc : consumer < g.size) (hd : dep < g.size) (hfuel : 1 ≤ fuel) :
    ((addChildren fuel g consumer dep).graph.get consumer).down =
      (g.get consumer).down ++ [dep] ∧
    ((addChildren fuel g consumer dep).graph.get dep).up =
      (g.get dep).up ++ [consumer] ∧
    ((addChildren fuel g consumer dep).graph.get consumer).cache = none ∧
    ((addChildren fuel g consumer dep).err = none →
      ∀ w, UpReach (addChildren fuel g consumer dep).graph consumer w →
        ((addChildren fuel g consumer dep).graph.get w).cache = none) := by
  rw [addChildren_eq fuel g hne]
  have hclearS := clearCacheInner_S fuel (pushEdge g consumer dep)
    [consumer] consumer
  refine ⟨?_, ?_, ?_, ?_⟩
  · rw [(hclearS.1.2 consumer).1, get_pushEdge_consumer g hc hne]
  · rw [(hclearS.1.2 dep).2.1, get_pushEdge_dep g hd hne]
  · exact clearCacheInner_clears_self fuel (pushEdge g consumer dep)
      [consumer] consumer hfuel
  · intro hsucc w hr
    exact clearCacheInner_All fuel (pushEdge g consumer dep) [consumer]
      consumer hsucc w (upReach_of_edgeEq hclearS.1.symm.edgeEq hr)

/-- Witness for C9 on a fresh pair of nodes. -/
theorem add_dependency_updates_both_endpoints_witness :
    (1 : Nat) ≠ 0 ∧ 0 < gTwo.size ∧ 1 < gTwo.size ∧ (1 : Nat) ≤ 5 ∧
    (((addChildren 5 gTwo 0 1).graph.get 0).down =
        (gTwo.get 0).down ++ [1] ∧
      ((addChildren 5 gTwo 0 1).graph.get 1).up = (gTwo.get 1).up ++ [0] ∧
      ((addChildren 5 gTwo 0 1).graph.get 0).cache = none ∧
      ((addChildren 5 gTwo 0 1).err = none →
        ∀ w, UpReach (addChildren 5 gTwo 0 1).graph 0 w →
          ((addChildren 5 gTwo 0 1).graph.get w).cache = none)) :=
  ⟨by decide, by decide, by decide, by decide,
    add_dependency_updates_both_endpoints gTwo 5 0 1 (by decide) (by decide)
      (by decide) (by decide)⟩

/-- Claim C10: the engine never reaches the supposedly unreachable
empty-cache read of `output` (for any fuel and any borrow context holding
the node's access), and on an acyclic graph with downward-closed caches a
completed `compute` leaves the node cached — its output read straight from
that cache — with every transitive upstream dependency cached as well. -/
theorem compute_never_reads_empty_cache (g : Graph) (rank : Nat → Nat)
    (id fuel : Nat) (hwf : Wf g) (hcc : CachedClosed g) (hid : id < g.size)
    (hrank : DownRank g rank) (hfuel : rank id < fuel) :
    (∀ (fuel2 : Nat) (active2 : List Nat), id ∈ active2 →
      (computeInner fuel2 g active2 id).err ≠ some CErr.unreachableErr) ∧
    (computeNode fuel g id).1.err = none ∧
    (∃ d, (computeNode fuel g id).2 = some d ∧
      ((computeNode fuel g id).1.graph.get id).cache = some d) ∧
    (∀ w, DownReach g id w →
      (((computeNode fuel g id).1.graph.get w).cache).isSome = true) := by
  have hconj1 : ∀ (fuel2 : Nat) (active2 : List Nat), id ∈ active2 →
      (computeInner fuel2 g active2 id).err ≠ some CErr.unreachableErr := by
    intro fuel2 active2 hmem
    obtain ⟨_, _, _, _, _, _, _, s8, _⟩ :=
      computeInner_S fuel2 g active2 id hwf hmem
    exact s8
  have hact : ∀ a ∈ ([id] : List Nat), rank id ≤ rank a := by
    intro a ha
    rw [List.mem_singleton.1 ha]
  have hsucc : (computeInner fuel g [id] id).err = none :=
    computeInner_T rank fuel g [id] id hwf hrank hact hfuel
  obtain ⟨s1, _, _, _, _, _, _, _, _, s10, s11⟩ :=
    computeInner_S fuel g [id] id hwf (List.mem_singleton_self id)
  obtain ⟨d, hd⟩ := Option.isSome_iff_exists.1 (s10 hsucc (Or.inl hid))
  rw [computeNode_eq_ok hsucc hd]
  refine ⟨hconj1, hsucc, ⟨d, rfl, hd⟩, ?_⟩
  intro w hr
  refine cached_downReach (wf_of_edgeEq s1.edgeEq hwf) (s11 hcc)
    (downReach_of_edgeEq s1.edgeEq hr) ?_ ?_
  · rw [s1.1]; exact hid
  · rw [hd]; rfl

/-- Witness for C10 on the two-node chain. -/
theorem compute_never_reads_empty_cache_witness :
    Wf gChain ∧ CachedClosed gChain ∧ 0 < gChain.size ∧
    DownRank gChain (fun v => 1 - v) ∧ (fun v => 1 - v) 0 < 5 ∧
    ((∀ (fuel2 : Nat) (active2 : List Nat), 0 ∈ active2 →
        (computeInner fuel2 gChain active2 0).err ≠
          some CErr.unreachableErr) ∧
      (computeNode 5 gChain 0).1.err = none ∧
      (∃ d, (computeNode 5 gChain 0).2 = some d ∧
        ((computeNode 5 gChain 0).1.graph.get 0).cache = some d) ∧
      (∀ w, DownReach gChain 0 w →
        (((computeNode 5 gChain 0).1.graph.get w).cache).isSome = true)) :=
  ⟨by decide, by decide, by decide, by decide, by decide,
    compute_never_reads_empty_cache gChain (fun v => 1 - v) 0 5 (by decide)
      (by decide) (by decide) (by decide) (by decide)⟩
